import Mathlib

/-!
Verification of the json-mason library (src/index.ts).

The embedding models JavaScript JSON-like values as trees.  Every container
(array or plain object) carries an identity tag `id : Nat`, standing for the
reference identity of the corresponding JavaScript heap object; scalars are
compared by value exactly as JavaScript compares primitives.  A fresh-identity
supply `sup : Nat` is threaded through every function that allocates
containers (`structuredClone`, intermediate materialization in `set`, the
spread copies made by append/prepend): the allocated tags are taken at or
above `sup` so that, whenever `sup` exceeds every tag of the inputs, freshly
allocated containers are distinct from every container of the inputs.

Host (JavaScript engine) semantics that the source relies on are modelled
explicitly and conservatively:
  - class bodies are always strict-mode code, so assigning a property on a
    primitive value and applying the `in` operator to a primitive both throw
    a TypeError; the model returns fixed TypeError strings for these (engine
    message texts are engine-specific);
  - numeric object keys are coerced to their decimal string; canonical
    numeric strings index array elements; the "length" property of arrays is
    readable and writable (writes require a non-negative number, else a
    RangeError);
  - assigning an array element past the end pads the array; the padding is
    modelled as explicit `undefined` elements (JavaScript holes and explicitly
    stored `undefined` are not distinguished, a conservative simplification);
  - documents are trees: internal aliasing inside one input document is not
    representable, matching documents built from JSON literals.

Paths are modelled with string keys and natural-number indices (the
`(string | number)[]` paths of the source, restricted to non-negative
integer indices).
-/

namespace JsonMason

/-- Path keys of the source: a string key or a (non-negative) integer index. -/
inductive Key : Type where
  | str (s : String) : Key
  | num (n : Nat) : Key
deriving DecidableEq, Repr

/-- Rendering of a key as JavaScript does when joining a path or coercing a
property key: numbers print in decimal. -/
def renderKey : Key → String
  | .str s => s
  | .num n => toString n

/-- Dot-joined rendering of a path, the `path.join(".")` of the source. -/
def pathJoin (p : List Key) : String :=
  String.intercalate "." (p.map renderKey)

/-- Whether a key is a number (the `typeof nextKey === "number"` test). -/
def Key.isNum : Key → Bool
  | .str _ => false
  | .num _ => true

mutual

/-- JSON-like document values.  Containers carry an identity tag modelling
JavaScript reference identity.  Arrays additionally carry non-index string
properties (`props`), which JavaScript permits on array objects. -/
inductive JValue : Type where
  | undefined : JValue
  | null : JValue
  | bool (b : Bool) : JValue
  | num (n : Int) : JValue
  | str (s : String) : JValue
  | arr (id : Nat) (elems : JList) (props : JFields) : JValue
  | obj (id : Nat) (fields : JFields) : JValue
deriving DecidableEq, Repr

/-- Lists of array elements. -/
inductive JList : Type where
  | nil : JList
  | cons (hd : JValue) (tl : JList) : JList
deriving DecidableEq, Repr

/-- Association lists of object fields (JavaScript objects have unique keys;
lookup takes the first binding). -/
inductive JFields : Type where
  | nil : JFields
  | cons (k : String) (v : JValue) (tl : JFields) : JFields
deriving DecidableEq, Repr

end

namespace JList

/-- Number of elements. -/
def length : JList → Nat
  | .nil => 0
  | .cons _ tl => tl.length + 1

/-- Element at an index, if within bounds. -/
def get? : JList → Nat → Option JValue
  | .nil, _ => none
  | .cons v _, 0 => some v
  | .cons _ tl, n + 1 => tl.get? n

/-- Element assignment `a[n] = v`, padding with `undefined` past the end. -/
def elemSet : JList → Nat → JValue → JList
  | .nil, 0, v => .cons v .nil
  | .nil, n + 1, v => .cons .undefined (elemSet .nil n v)
  | .cons _ tl, 0, v => .cons v tl
  | .cons h tl, n + 1, v => .cons h (elemSet tl n v)

/-- Appending one element at the end (the `[...current, value]` spread). -/
def snoc : JList → JValue → JList
  | .nil, v => .cons v .nil
  | .cons h tl, v => .cons h (snoc tl v)

/-- The `splice(n, 1)` removal: drops the element at index `n` and shifts the
rest down; out-of-range indices remove nothing. -/
def splice1 : JList → Nat → JList
  | .nil, _ => .nil
  | .cons _ tl, 0 => tl
  | .cons h tl, n + 1 => .cons h (splice1 tl n)

/-- Resizing to an exact length (assignment to the array `length` property):
truncates or pads with `undefined`. -/
def resize : JList → Nat → JList
  | _, 0 => .nil
  | .nil, n + 1 => .cons .undefined (resize .nil n)
  | .cons h tl, n + 1 => .cons h (resize tl n)

end JList

namespace JFields

/-- First binding for a key, if any. -/
def lookupF : JFields → String → Option JValue
  | .nil, _ => none
  | .cons k v tl, s => if k = s then some v else lookupF tl s

/-- Whether a binding for the key exists (the `in` operator on objects). -/
def hasF (fs : JFields) (s : String) : Bool :=
  (fs.lookupF s).isSome

/-- Property assignment: replaces the first binding for the key, or appends a
new binding at the end. -/
def setF : JFields → String → JValue → JFields
  | .nil, s, v => .cons s v .nil
  | .cons k w tl, s, v =>
      if k = s then .cons s v tl else .cons k w (setF tl s v)

/-- Property deletion (the `delete` operator): removes the binding. -/
def removeF : JFields → String → JFields
  | .nil, _ => .nil
  | .cons k w tl, s =>
      if k = s then removeF tl s else .cons k w (removeF tl s)

end JFields

open JList JFields

/-- Canonical numeric string, exactly the strings JavaScript treats as array
indices: the decimal rendering of a natural number. -/
def canonIndex (s : String) : Option Nat :=
  match s.toNat? with
  | some n => if toString n = s then some n else none
  | none => none

/-- Whether a value is `null` or `undefined` (the `current == null` test). -/
def isNullish : JValue → Bool
  | .null => true
  | .undefined => true
  | _ => false

/-- Whether a value is an array or a plain object (the values on which
property access never throws and `in` is legal). -/
def isContainer : JValue → Bool
  | .arr _ _ _ => true
  | .obj _ _ => true
  | _ => false

/-- The `Array.isArray` test. -/
def isArr : JValue → Bool
  | .arr _ _ _ => true
  | _ => false

/-- Whether a value is a plain object. -/
def isObj : JValue → Bool
  | .obj _ _ => true
  | _ => false

/-- The `typeof v === "string"` test. -/
def isStr : JValue → Bool
  | .str _ => true
  | _ => false

/-- Indexing a string primitive: the one-character string at the index, or
`undefined` out of range. -/
def charAt (t : String) (n : Nat) : JValue :=
  match t.data.get? n with
  | some c => .str (String.mk [c])
  | none => .undefined

/-- Property read `v[k]`, returning `undefined` where JavaScript yields
`undefined`.  Reading on `null`/`undefined` is never reached by the source
(it tests `== null` first), on other primitives it yields `undefined`
except for string indexing and the `length` property of strings/arrays. -/
def jsIndex : JValue → Key → JValue
  | .obj _ fs, k => (fs.lookupF (renderKey k)).getD .undefined
  | .arr _ el _, .num n => (el.get? n).getD .undefined
  | .arr _ el pr, .str s =>
      if s = "length" then .num el.length
      else
        match canonIndex s with
        | some n => (el.get? n).getD .undefined
        | none => (pr.lookupF s).getD .undefined
  | .str t, .num n => charAt t n
  | .str t, .str s =>
      if s = "length" then .num t.data.length
      else
        match canonIndex s with
        | some n => charAt t n
        | none => .undefined
  | _, _ => .undefined

/-- The `key in current` test on containers. -/
def keyInB : JValue → Key → Bool
  | .obj _ fs, k => fs.hasF (renderKey k)
  | .arr _ el _, .num n => n < el.length
  | .arr _ el pr, .str s =>
      if s = "length" then true
      else
        match canonIndex s with
        | some n => n < el.length
        | none => pr.hasF s
  | _, _ => false

/-- Fixed reason text modelling the strict-mode TypeError raised by the `in`
operator on a primitive operand. -/
def inOpTypeError : String :=
  "TypeError: cannot use the in operator to search in a primitive value"

/-- Fixed reason text modelling the strict-mode TypeError raised by creating
a property on a primitive value. -/
def assignTypeError : String :=
  "TypeError: cannot create a property on a primitive value"

/-- Fixed reason text modelling the RangeError raised by an invalid array
length assignment. -/
def lengthRangeError : String :=
  "RangeError: invalid array length"

/-- The `key in current` expression: throws a TypeError on primitives. -/
def keyIn (v : JValue) (k : Key) : Except String Bool :=
  if isContainer v then .ok (keyInB v k) else .error inOpTypeError

/-- Property assignment `cur[k] = v`: updates objects and arrays, throws a
TypeError (strict-mode class body) on primitives.  On arrays, numeric and
canonical-numeric-string keys assign elements (padding past the end), the
`length` key resizes (demanding a non-negative number), and any other string
key stores a non-index property. -/
def assign : JValue → Key → JValue → Except String JValue
  | .obj oid fs, k, v => .ok (.obj oid (fs.setF (renderKey k) v))
  | .arr aid el pr, .num n, v => .ok (.arr aid (el.elemSet n v) pr)
  | .arr aid el pr, .str s, v =>
      if s = "length" then
        match v with
        | .num n => if 0 ≤ n then .ok (.arr aid (el.resize n.toNat) pr)
                    else .error lengthRangeError
        | _ => .error lengthRangeError
      else
        match canonIndex s with
        | some n => .ok (.arr aid (el.elemSet n v) pr)
        | none => .ok (.arr aid el (pr.setF s v))
  | _, _, _ => .error assignTypeError

mutual

/-- The `JsonMasonUtils.clone` deep copy (`structuredClone`): preserves the
tree shape but allocates every container afresh, consuming identity tags
from the supply. -/
def clone : JValue → Nat → JValue × Nat
  | .undefined, s => (.undefined, s)
  | .null, s => (.null, s)
  | .bool b, s => (.bool b, s)
  | .num n, s => (.num n, s)
  | .str t, s => (.str t, s)
  | .arr _ el pr, s =>
      let p := cloneL el (s + 1)
      let q := cloneF pr p.2
      (.arr s p.1 q.1, q.2)
  | .obj _ fs, s =>
      let p := cloneF fs (s + 1)
      (.obj s p.1, p.2)

/-- Deep copy of element lists. -/
def cloneL : JList → Nat → JList × Nat
  | .nil, s => (.nil, s)
  | .cons v vs, s =>
      let p := clone v s
      let q := cloneL vs p.2
      (.cons p.1 q.1, q.2)

/-- Deep copy of field lists. -/
def cloneF : JFields → Nat → JFields × Nat
  | .nil, s => (.nil, s)
  | .cons k v fs, s =>
      let p := clone v s
      let q := cloneF fs p.2
      (.cons k p.1 q.1, q.2)

end

mutual

/-- Erasure of identity tags (tags set to 0): two values are structurally
equal, in the sense of JavaScript deep equality, exactly when their erasures
are equal. -/
def stripIds : JValue → JValue
  | .undefined => .undefined
  | .null => .null
  | .bool b => .bool b
  | .num n => .num n
  | .str t => .str t
  | .arr _ el pr => .arr 0 (stripL el) (stripF pr)
  | .obj _ fs => .obj 0 (stripF fs)

/-- Tag erasure on element lists. -/
def stripL : JList → JList
  | .nil => .nil
  | .cons v vs => .cons (stripIds v) (stripL vs)

/-- Tag erasure on field lists. -/
def stripF : JFields → JFields
  | .nil => .nil
  | .cons k v fs => .cons k (stripIds v) (stripF fs)

end

mutual

/-- All container identity tags occurring in a value. -/
def idsV : JValue → List Nat
  | .undefined => []
  | .null => []
  | .bool _ => []
  | .num _ => []
  | .str _ => []
  | .arr i el pr => i :: (idsL el ++ idsF pr)
  | .obj i fs => i :: idsF fs

/-- Container identity tags in an element list. -/
def idsL : JList → List Nat
  | .nil => []
  | .cons v vs => idsV v ++ idsL vs

/-- Container identity tags in a field list. -/
def idsF : JFields → List Nat
  | .nil => []
  | .cons _ v fs => idsV v ++ idsF fs

end

/-- Identity tag of the root, if the value is a container. -/
def rootIds : JValue → List Nat
  | .arr i _ _ => [i]
  | .obj i _ => [i]
  | _ => []

/-- The `JsonMasonUtils.get` navigation: walks the path key by key, stopping
with `undefined` as soon as the current value is nullish. -/
def get : JValue → List Key → JValue
  | v, [] => v
  | v, k :: ks => if isNullish v then .undefined else get (jsIndex v k) ks

/-- The fresh intermediate container materialized by `set` when a key is
missing: an empty array when the next key is a number, an empty object
otherwise. -/
def freshContainer (nextKey : Key) (sup : Nat) : JValue :=
  match nextKey with
  | .num _ => .arr sup .nil .nil
  | .str _ => .obj sup .nil

/-- The navigation loop of `JsonMasonUtils.set` on the private copy: walks
all keys but the last, materializing missing intermediates, and assigns the
value at the final key.  The in-place mutations of the source are rendered
as writing the modified child back at its key. -/
def setLoop : JValue → Key → List Key → JValue → Nat → Except String (JValue × Nat)
  | cur, k, [], value, sup =>
      match assign cur k value with
      | .error e => .error e
      | .ok r => .ok (r, sup)
  | cur, k, nk :: rest, value, sup =>
      match keyIn cur k with
      | .error e => .error e
      | .ok true =>
          match setLoop (jsIndex cur k) nk rest value sup with
          | .error e => .error e
          | .ok p =>
              match assign cur k p.1 with
              | .error e => .error e
              | .ok out => .ok (out, p.2)
      | .ok false =>
          match assign cur k (freshContainer nk sup) with
          | .error e => .error e
          | .ok cur2 =>
              match setLoop (jsIndex cur2 k) nk rest value (sup + 1) with
              | .error e => .error e
              | .ok p =>
                  match assign cur2 k p.1 with
                  | .error e => .error e
                  | .ok out => .ok (out, p.2)

/-- The `JsonMasonUtils.set` write: an empty path returns the value itself;
otherwise the document is deep-copied once and the copy is updated along the
path. -/
def set (obj : JValue) (path : List Key) (value : JValue) (sup : Nat) :
    Except String (JValue × Nat) :=
  match path with
  | [] => .ok (value, sup)
  | k :: ks =>
      let c := clone obj sup
      setLoop c.1 k ks value c.2

/-- Reason text of `validateArray`. -/
def msgNotArray (p : List Key) : String :=
  "Target at path " ++ pathJoin p ++ " is not an array"

/-- Reason text of `validateString`. -/
def msgNotString (p : List Key) : String :=
  "Target at path " ++ pathJoin p ++ " is not a string"

/-- Reason text of `validateAppendable`. -/
def msgNotAppendable (p : List Key) : String :=
  "Target at path " ++ pathJoin p ++ " is not an array or string"

/-- Reason text of the missing-parent failure of `delete`. -/
def msgMissingParent (p : List Key) : String :=
  "Parent path " ++ pathJoin p ++ " does not exist"

/-- Reason text of the invalid-index failure of `delete` on an array. -/
def msgInvalidIndex (s : String) : String :=
  "Invalid array index: " ++ s

/-- Reason text of the non-container failure of `delete`. -/
def msgNotObject (p : List Key) : String :=
  "Cannot delete from non-object at " ++ pathJoin p

/-- Reason text of the root-deletion failure of `delete`. -/
def msgRootDelete : String :=
  "Cannot delete root object"

/-- Reason text of the string/string type-mismatch failure of
append/prepend. -/
def msgStringsOnly : String :=
  "Can only append/prepend strings to strings"

/-- Reason text of the unknown-action failure. -/
def msgUnknown (action : String) : String :=
  "Unknown operation: " ++ action

/-- The `JsonMasonUtils.validateArray` assertion. -/
def validateArray (v : JValue) (p : List Key) : Except String Unit :=
  if isArr v then .ok () else .error (msgNotArray p)

/-- The `JsonMasonUtils.validateString` assertion. -/
def validateString (v : JValue) (p : List Key) : Except String Unit :=
  if isStr v then .ok () else .error (msgNotString p)

/-- The `JsonMasonUtils.validateAppendable` assertion. -/
def validateAppendable (v : JValue) (p : List Key) : Except String Unit :=
  if isArr v || isStr v then .ok () else .error (msgNotAppendable p)

/-- Writing a modified child back at its key in the spine; the keys reached
here were readable, so the update mirrors the in-place mutation of the
source.  (Primitive parents are unreachable: mutation below them fails.) -/
def writeChild : JValue → Key → JValue → JValue
  | .obj oid fs, k, c => .obj oid (fs.setF (renderKey k) c)
  | .arr aid el pr, .num n, c => .arr aid (el.elemSet n c) pr
  | .arr aid el pr, .str s, c =>
      if s = "length" then .arr aid el pr
      else
        match canonIndex s with
        | some n => .arr aid (el.elemSet n c) pr
        | none => .arr aid el (pr.setF s c)
  | v, _, _ => v

/-- The walk of the `delete` case of `executeOperation` on the private copy:
navigates the parent path exactly as `get` does, then removes the final key
from the parent (splicing arrays, deleting object fields), rebuilding the
spine.  `ppStr` is the dot-joined parent path used in reason texts. -/
def delWalk (ppStr : String) (finalKey : Key) : JValue → List Key → Except String JValue
  | v, [] =>
      if isNullish v then .error ("Parent path " ++ ppStr ++ " does not exist")
      else
        match v with
        | .arr aid el pr =>
            match finalKey with
            | .num n => .ok (.arr aid (el.splice1 n) pr)
            | .str s => .error (msgInvalidIndex s)
        | .obj oid fs => .ok (.obj oid (fs.removeF (renderKey finalKey)))
        | _ => .error ("Cannot delete from non-object at " ++ ppStr)
  | v, k :: ks =>
      if isNullish v then .error ("Parent path " ++ ppStr ++ " does not exist")
      else
        match delWalk ppStr finalKey (jsIndex v k) ks with
        | .error e => .error e
        | .ok child => .ok (writeChild v k child)

/-- The `delete` case of `executeOperation`: root deletion is refused;
otherwise the document is deep-copied and the final key is removed from the
resolved parent. -/
def deleteOp (source : JValue) (path : List Key) (sup : Nat) :
    Except String (JValue × Nat) :=
  match path with
  | [] => .error msgRootDelete
  | _ :: _ =>
      let c := clone source sup
      let pp := path.dropLast
      let fk := (path.getLast?).getD (.str "")
      match delWalk (pathJoin pp) fk c.1 pp with
      | .error e => .error e
      | .ok r => .ok (r, c.2)

/-- The `append`/`prepend` cases of `executeOperation`: the current value at
the path must be an array or a string; strings concatenate string values
only; arrays are copied with the value inserted at the end or the start
(a fresh array), and the result is written back via `set`. -/
def appendOp (source : JValue) (path : List Key) (isApp : Bool) (value : JValue)
    (sup : Nat) : Except String (JValue × Nat) :=
  let current := get source path
  match validateAppendable current path with
  | .error e => .error e
  | .ok _ =>
      match current with
      | .str s =>
          match value with
          | .str t => set source path (.str (if isApp then s ++ t else t ++ s)) sup
          | _ => .error msgStringsOnly
      | .arr _ el _ =>
          set source path
            (.arr sup (if isApp then el.snoc value else .cons value el) .nil)
            (sup + 1)
      | _ => .error (msgNotAppendable path)

/-- One edit instruction.  The action is the untyped string tag of the
source; `value` is ignored by `delete` (absent values are `undefined`). -/
structure Operation : Type where
  path : List Key
  action : String
  value : JValue
deriving DecidableEq, Repr

/-- The failure record of a batch step. -/
structure OperationError : Type where
  index : Nat
  operation : Operation
  reason : String
deriving DecidableEq, Repr

/-- The `Config` options object; `strict` may be absent. -/
structure Config : Type where
  strict : Option Bool
deriving DecidableEq, Repr

/-- The `config?.strict ?? true` default. -/
def strictOf : Option Config → Bool
  | some c => c.strict.getD true
  | none => true

/-- The `executeOperation` dispatch on the action tag. -/
def executeOperation (source : JValue) (op : Operation) (sup : Nat) :
    Except String (JValue × Nat) :=
  if op.action = "set" then set source op.path op.value sup
  else if op.action = "delete" then deleteOp source op.path sup
  else if op.action = "append" then appendOp source op.path true op.value sup
  else if op.action = "prepend" then appendOp source op.path false op.value sup
  else .error (msgUnknown op.action)

instance exceptDecEq {e a : Type} [DecidableEq e] [DecidableEq a] :
    DecidableEq (Except e a) := fun x y =>
  match x, y with
  | .ok u, .ok w =>
      if h : u = w then .isTrue (by rw [h]) else .isFalse (by simp [h])
  | .error u, .error w =>
      if h : u = w then .isTrue (by rw [h]) else .isFalse (by simp [h])
  | .ok _, .error _ => .isFalse (by simp)
  | .error _, .ok _ => .isFalse (by simp)

/-- Outcome of one `apply` call: the returned document or the raised error,
together with the error record that `getErrors()` exposes afterwards (the
record is reset at the start of every call), and the final supply. -/
structure ApplyOut : Type where
  result : Except String JValue
  errors : List OperationError
  sup : Nat
deriving DecidableEq, Repr

/-- The loop of `JsonMason.apply`: executes operations in order against the
running result; on the first failure, strict mode re-raises the reason and
non-strict mode records one error and returns the original source itself. -/
def applyGo (source : JValue) (strict : Bool) :
    List Operation → Nat → JValue → Nat → ApplyOut
  | [], _, r, sup => ⟨.ok r, [], sup⟩
  | op :: rest, i, r, sup =>
      match executeOperation r op sup with
      | .ok p => applyGo source strict rest (i + 1) p.1 p.2
      | .error msg =>
          if strict then ⟨.error msg, [], sup⟩
          else ⟨.ok source, [⟨i, op, msg⟩], sup⟩

/-- The `JsonMason.apply` batch runner: resets the error record, deep-copies
the source into the running result, and executes the batch. -/
def apply (source : JValue) (ops : List Operation) (cfg : Option Config)
    (sup : Nat) : ApplyOut :=
  let c := clone source sup
  applyGo source (strictOf cfg) ops 0 c.1 c.2

/-- Successful sequential execution of a batch against a running result,
used to state that a given index is the first failing one. -/
def runOps : JValue → Nat → List Operation → Except String (JValue × Nat)
  | r, sup, [] => .ok (r, sup)
  | r, sup, op :: rest =>
      match executeOperation r op sup with
      | .ok p => runOps p.1 p.2 rest
      | .error e => .error e

/-- Identity tags of the containers met while reading a value along a path
from the root: the root's tag, then the tags along each successive child.
This is the spine of containers "from the root down to the edited node" of
the sharing invariant. -/
def spineIds : JValue → List Key → List Nat
  | v, [] => rootIds v
  | v, k :: ks => rootIds v ++ spineIds (jsIndex v k) ks

/-- Specification-side success condition for the final assignment step of a
write: the node holding the final key must be a container, and an array
accepts any key except a `length` resize to something other than a
non-negative number. -/
def lastStepOk (v : JValue) (k : Key) (value : JValue) : Bool :=
  match v with
  | .obj _ _ => true
  | .arr _ _ _ =>
      match k with
      | .num _ => true
      | .str s =>
          if s = "length" then
            match value with
            | .num n => decide (0 ≤ n)
            | _ => false
          else true
  | _ => false

/-- Specification-side success condition for a write along a non-empty path:
every node at which the walk indexes or assigns is a container (missing
intermediates count as the container that would be materialized), and the
final assignment is acceptable per `lastStepOk`.  This predicate depends
only on the shape of the document, not on identity tags or the supply. -/
def pathClear : JValue → Key → List Key → JValue → Bool
  | v, k, [], value => lastStepOk v k value
  | v, k, nk :: rest, value =>
      isContainer v &&
        pathClear (if keyInB v k then jsIndex v k else freshContainer nk 0) nk rest value

/-! Induction principles for the list-like members of the mutual family,
usable with the `induction ... using` tactic. -/

theorem jlistInduction {motive : JList → Prop} (nil : motive .nil)
    (cons : ∀ (h : JValue) (t : JList), motive t → motive (.cons h t)) :
    ∀ l, motive l
  | .nil => nil
  | .cons h t => cons h t (jlistInduction nil cons t)

theorem jfieldsInduction {motive : JFields → Prop} (nil : motive .nil)
    (cons : ∀ (k : String) (v : JValue) (t : JFields),
      motive t → motive (.cons k v t)) :
    ∀ fs, motive fs
  | .nil => nil
  | .cons k v t => cons k v t (jfieldsInduction nil cons t)

/-! Basic lemmas about element lists and field lists. -/

theorem stripL_length (l : JList) : (stripL l).length = l.length := by
  induction l using jlistInduction with
  | nil => rfl
  | cons h t ih => simp [stripL, JList.length, ih]

theorem stripL_get? (l : JList) (n : Nat) :
    (stripL l).get? n = (l.get? n).map stripIds := by
  induction l using jlistInduction generalizing n with
  | nil => rfl
  | cons h t ih =>
      cases n with
      | zero => rfl
      | succ m => simpa [stripL, JList.get?] using ih m

theorem stripF_lookupF (fs : JFields) (s : String) :
    (stripF fs).lookupF s = (fs.lookupF s).map stripIds := by
  induction fs using jfieldsInduction with
  | nil => rfl
  | cons k v tl ih =>
      by_cases h : k = s <;> simp [stripF, JFields.lookupF, h, ih]

theorem stripF_hasF (fs : JFields) (s : String) :
    (stripF fs).hasF s = fs.hasF s := by
  cases h : fs.lookupF s <;> simp [JFields.hasF, stripF_lookupF, h]

theorem elemSet_get? (n : Nat) (l : JList) (v : JValue) :
    (l.elemSet n v).get? n = some v := by
  induction n generalizing l with
  | zero => cases l <;> rfl
  | succ m ih =>
      cases l with
      | nil => simpa [JList.elemSet, JList.get?] using ih .nil
      | cons h t => simpa [JList.elemSet, JList.get?] using ih t

theorem elemSet_of_get? {l : JList} {n : Nat} {v : JValue}
    (h : l.get? n = some v) : l.elemSet n v = l := by
  induction n generalizing l with
  | zero =>
      cases l with
      | nil => simp [JList.get?] at h
      | cons hd t =>
          simp [JList.get?] at h
          simp [JList.elemSet, h]
  | succ m ih =>
      cases l with
      | nil => simp [JList.get?] at h
      | cons hd t =>
          simp [JList.get?] at h
          simp [JList.elemSet, ih h]

theorem setF_lookupF (fs : JFields) (s : String) (v : JValue) :
    (fs.setF s v).lookupF s = some v := by
  induction fs using jfieldsInduction with
  | nil => simp [JFields.setF, JFields.lookupF]
  | cons k w tl ih =>
      by_cases h : k = s <;> simp [JFields.setF, JFields.lookupF, h, ih]

theorem setF_of_lookupF {fs : JFields} {s : String} {v : JValue}
    (h : fs.lookupF s = some v) : fs.setF s v = fs := by
  induction fs using jfieldsInduction with
  | nil => simp [JFields.lookupF] at h
  | cons k w tl ih =>
      by_cases hk : k = s
      · subst hk
        simp [JFields.lookupF] at h
        simp [JFields.setF, h]
      · simp [JFields.lookupF, hk] at h
        simp [JFields.setF, hk, ih h]

theorem removeF_absent {fs : JFields} {s : String}
    (h : fs.lookupF s = none) : fs.removeF s = fs := by
  induction fs using jfieldsInduction with
  | nil => rfl
  | cons k w tl ih =>
      by_cases hk : k = s
      · subst hk; simp [JFields.lookupF] at h
      · simp [JFields.lookupF, hk] at h
        simp [JFields.removeF, hk, ih h]

theorem resize_length (n : Nat) (l : JList) : (l.resize n).length = n := by
  induction n generalizing l with
  | zero => cases l <;> rfl
  | succ m ih =>
      cases l with
      | nil => simpa [JList.resize, JList.length] using ih .nil
      | cons h t => simpa [JList.resize, JList.length] using ih t

/-! Identity-tag containment lemmas. -/

theorem lookupF_ids {fs : JFields} {s : String} {v : JValue}
    (h : fs.lookupF s = some v) : ∀ i ∈ idsV v, i ∈ idsF fs := by
  induction fs using jfieldsInduction with
  | nil => simp [JFields.lookupF] at h
  | cons k w tl ih =>
      intro i hi
      by_cases hk : k = s
      · subst hk
        simp [JFields.lookupF] at h
        subst h
        simp [idsF]
        exact Or.inl hi
      · simp [JFields.lookupF, hk] at h
        simp [idsF]
        exact Or.inr (ih h i hi)

theorem get?_ids {l : JList} {n : Nat} {v : JValue}
    (h : l.get? n = some v) : ∀ i ∈ idsV v, i ∈ idsL l := by
  induction n generalizing l with
  | zero =>
      cases l with
      | nil => simp [JList.get?] at h
      | cons hd t =>
          simp [JList.get?] at h
          subst h
          intro i hi
          simp [idsL]
          exact Or.inl hi
  | succ m ih =>
      cases l with
      | nil => simp [JList.get?] at h
      | cons hd t =>
          simp [JList.get?] at h
          intro i hi
          simp [idsL]
          exact Or.inr (ih h i hi)

theorem elemSet_ids {l : JList} {n : Nat} {v : JValue} :
    ∀ i ∈ idsL (l.elemSet n v), i ∈ idsL l ∨ i ∈ idsV v := by
  induction n generalizing l with
  | zero =>
      cases l with
      | nil =>
          intro i hi
          simp [JList.elemSet, idsL] at hi
          exact Or.inr hi
      | cons hd t =>
          intro i hi
          simp [JList.elemSet, idsL] at hi
          rcases hi with hi | hi
          · exact Or.inr hi
          · exact Or.inl (by simp [idsL]; exact Or.inr hi)
  | succ m ih =>
      cases l with
      | nil =>
          intro i hi
          simp [JList.elemSet, idsL, idsV] at hi
          rcases ih (l := .nil) i (by simpa [idsL] using hi) with hi' | hi'
          · simp [idsL] at hi'
          · exact Or.inr hi'
      | cons hd t =>
          intro i hi
          simp [JList.elemSet, idsL] at hi
          rcases hi with hi | hi
          · exact Or.inl (by simp [idsL]; exact Or.inl hi)
          · rcases ih i hi with hi' | hi'
            · exact Or.inl (by simp [idsL]; exact Or.inr hi')
            · exact Or.inr hi'

theorem setF_ids {fs : JFields} {s : String} {v : JValue} :
    ∀ i ∈ idsF (fs.setF s v), i ∈ idsF fs ∨ i ∈ idsV v := by
  induction fs using jfieldsInduction with
  | nil =>
      intro i hi
      simp [JFields.setF, idsF] at hi
      exact Or.inr hi
  | cons k w tl ih =>
      intro i hi
      by_cases hk : k = s
      · simp [JFields.setF, hk, idsF] at hi
        rcases hi with hi | hi
        · exact Or.inr hi
        · exact Or.inl (by simp [idsF]; exact Or.inr hi)
      · simp [JFields.setF, hk, idsF] at hi
        rcases hi with hi | hi
        · exact Or.inl (by simp [idsF]; exact Or.inl hi)
        · rcases ih i hi with hi' | hi'
          · exact Or.inl (by simp [idsF]; exact Or.inr hi')
          · exact Or.inr hi'

theorem removeF_ids {fs : JFields} {s : String} :
    ∀ i ∈ idsF (fs.removeF s), i ∈ idsF fs := by
  induction fs using jfieldsInduction with
  | nil => simp [JFields.removeF]
  | cons k w tl ih =>
      intro i hi
      by_cases hk : k = s
      · simp [JFields.removeF, hk] at hi
        simp [idsF]
        exact Or.inr (ih i hi)
      · simp [JFields.removeF, hk, idsF] at hi
        simp [idsF]
        rcases hi with hi | hi
        · exact Or.inl hi
        · exact Or.inr (ih i hi)

theorem splice1_ids {l : JList} {n : Nat} :
    ∀ i ∈ idsL (l.splice1 n), i ∈ idsL l := by
  induction n generalizing l with
  | zero =>
      cases l with
      | nil => simp [JList.splice1]
      | cons hd t =>
          intro i hi
          simp [JList.splice1] at hi
          simp [idsL]
          exact Or.inr hi
  | succ m ih =>
      cases l with
      | nil => simp [JList.splice1]
      | cons hd t =>
          intro i hi
          simp [JList.splice1, idsL] at hi
          simp [idsL]
          rcases hi with hi | hi
          · exact Or.inl hi
          · exact Or.inr (ih i hi)

theorem resize_ids {l : JList} {n : Nat} :
    ∀ i ∈ idsL (l.resize n), i ∈ idsL l := by
  induction n generalizing l with
  | zero => simp [JList.resize, idsL]
  | succ m ih =>
      cases l with
      | nil =>
          intro i hi
          simp [JList.resize, idsL, idsV] at hi
          have h2 := ih (l := .nil) i (by simpa [idsL] using hi)
          simp [idsL] at h2
      | cons hd t =>
          intro i hi
          simp [JList.resize, idsL] at hi
          simp [idsL]
          rcases hi with hi | hi
          · exact Or.inl hi
          · exact Or.inr (ih i hi)

/-! Shape predicates and property reads depend only on the identity-erased
shape of a value. -/

theorem isNullish_strip (v : JValue) : isNullish (stripIds v) = isNullish v := by
  cases v <;> rfl

theorem isContainer_strip (v : JValue) : isContainer (stripIds v) = isContainer v := by
  cases v <;> rfl

theorem isArr_strip (v : JValue) : isArr (stripIds v) = isArr v := by
  cases v <;> rfl

theorem isObj_strip (v : JValue) : isObj (stripIds v) = isObj v := by
  cases v <;> rfl

theorem isStr_strip (v : JValue) : isStr (stripIds v) = isStr v := by
  cases v <;> rfl

theorem charAt_strip (t : String) (n : Nat) : stripIds (charAt t n) = charAt t n := by
  unfold charAt
  cases t.data.get? n <;> rfl

theorem charAt_ids (t : String) (n : Nat) : idsV (charAt t n) = [] := by
  unfold charAt
  cases t.data.get? n <;> rfl

theorem charAt_notContainer (t : String) (n : Nat) : isContainer (charAt t n) = false := by
  unfold charAt
  cases t.data.get? n <;> rfl

theorem jsIndex_strip (v : JValue) (k : Key) :
    jsIndex (stripIds v) k = stripIds (jsIndex v k) := by
  cases v with
  | undefined => cases k <;> rfl
  | null => cases k <;> rfl
  | bool b => cases k <;> rfl
  | num n => cases k <;> rfl
  | str t =>
      cases k with
      | num n => simp [jsIndex, stripIds, charAt_strip]
      | str s =>
          by_cases hl : s = "length"
          · simp [jsIndex, stripIds, hl]
          · cases hc : canonIndex s with
            | none => simp [jsIndex, stripIds, hl, hc]
            | some n => simp [jsIndex, stripIds, hl, hc, charAt_strip]
  | arr aid el pr =>
      cases k with
      | num n =>
          simp only [stripIds, jsIndex, stripL_get?]
          cases h : el.get? n <;> simp [h, stripIds]
      | str s =>
          by_cases hl : s = "length"
          · simp [stripIds, jsIndex, hl, stripL_length]
          · cases hc : canonIndex s with
            | none =>
                simp only [stripIds, jsIndex, stripF_lookupF, hl, hc]
                cases h : pr.lookupF s <;> simp [h, stripIds]
            | some n =>
                simp only [stripIds, jsIndex, stripL_get?, hl, hc]
                cases h : el.get? n <;> simp [h, stripIds]
  | obj oid fs =>
      simp only [stripIds, jsIndex, stripF_lookupF]
      cases h : fs.lookupF (renderKey k) <;> simp [h, stripIds]

theorem keyInB_strip (v : JValue) (k : Key) :
    keyInB (stripIds v) k = keyInB v k := by
  cases v with
  | undefined => cases k <;> rfl
  | null => cases k <;> rfl
  | bool b => cases k <;> rfl
  | num n => cases k <;> rfl
  | str t => cases k <;> rfl
  | arr aid el pr =>
      cases k with
      | num n => simp [keyInB, stripIds, stripL_length]
      | str s =>
          by_cases hl : s = "length"
          · simp [keyInB, stripIds, hl]
          · cases hc : canonIndex s with
            | none => simp [keyInB, stripIds, hl, hc, stripF_hasF]
            | some n => simp [keyInB, stripIds, hl, hc, stripL_length]
  | obj oid fs => simp [keyInB, stripIds, stripF_hasF]

theorem rootIds_sub_idsV (v : JValue) : ∀ i ∈ rootIds v, i ∈ idsV v := by
  cases v <;> simp [rootIds, idsV]

theorem jsIndex_ids (v : JValue) (k : Key) :
    ∀ i ∈ idsV (jsIndex v k), i ∈ idsV v := by
  cases v with
  | undefined => cases k <;> simp [jsIndex, idsV]
  | null => cases k <;> simp [jsIndex, idsV]
  | bool b => cases k <;> simp [jsIndex, idsV]
  | num n => cases k <;> simp [jsIndex, idsV]
  | str t =>
      cases k with
      | num n => simp [jsIndex, charAt_ids]
      | str s =>
          by_cases hl : s = "length"
          · simp [jsIndex, hl, idsV]
          · cases hc : canonIndex s with
            | none => simp [jsIndex, hl, hc, idsV]
            | some n => simp [jsIndex, hl, hc, charAt_ids]
  | arr aid el pr =>
      cases k with
      | num n =>
          cases h : el.get? n with
          | none => simp [jsIndex, h, idsV]
          | some w =>
              intro i hi
              simp only [jsIndex, h, Option.getD_some] at hi
              simp [idsV]
              exact Or.inr (Or.inl (get?_ids h i hi))
      | str s =>
          by_cases hl : s = "length"
          · simp [jsIndex, hl, idsV]
          · cases hc : canonIndex s with
            | none =>
                cases h : pr.lookupF s with
                | none => simp [jsIndex, hl, hc, h, idsV]
                | some w =>
                    intro i hi
                    simp only [jsIndex, hl, hc, h, if_neg hl, Option.getD_some] at hi
                    simp [idsV]
                    exact Or.inr (Or.inr (lookupF_ids h i hi))
            | some n =>
                cases h : el.get? n with
                | none => simp [jsIndex, hl, hc, h, idsV]
                | some w =>
                    intro i hi
                    simp only [jsIndex, hl, hc, h, if_neg hl, Option.getD_some] at hi
                    simp [idsV]
                    exact Or.inr (Or.inl (get?_ids h i hi))
  | obj oid fs =>
      cases h : fs.lookupF (renderKey k) with
      | none => simp [jsIndex, h, idsV]
      | some w =>
          intro i hi
          simp only [jsIndex, h, Option.getD_some] at hi
          simp [idsV]
          exact Or.inr (lookupF_ids h i hi)

theorem jsIndex_notContainer {v : JValue} (h : isContainer v = false) (k : Key) :
    isContainer (jsIndex v k) = false := by
  cases v with
  | undefined => cases k <;> rfl
  | null => cases k <;> rfl
  | bool b => cases k <;> rfl
  | num n => cases k <;> rfl
  | str t =>
      cases k with
      | num n => simp [jsIndex, charAt_notContainer]
      | str s =>
          by_cases hl : s = "length"
          · simp [jsIndex, hl, isContainer]
          · cases hc : canonIndex s with
            | none => simp [jsIndex, hl, hc, isContainer]
            | some n => simp [jsIndex, hl, hc, charAt_notContainer]
  | arr aid el pr => simp [isContainer] at h
  | obj oid fs => simp [isContainer] at h

/-! Lemmas about the deep copy: it preserves shape and allocates only
identity tags at or above the supply. -/

mutual

theorem clone_strip (v : JValue) (s : Nat) : stripIds (clone v s).1 = stripIds v := by
  cases v with
  | undefined => rfl
  | null => rfl
  | bool b => rfl
  | num n => rfl
  | str t => rfl
  | arr aid el pr => simp only [clone, stripIds, cloneL_strip, cloneF_strip]
  | obj oid fs => simp only [clone, stripIds, cloneF_strip]

theorem cloneL_strip (l : JList) (s : Nat) : stripL (cloneL l s).1 = stripL l := by
  cases l with
  | nil => rfl
  | cons v vs => simp only [cloneL, stripL, clone_strip, cloneL_strip]

theorem cloneF_strip (fs : JFields) (s : Nat) : stripF (cloneF fs s).1 = stripF fs := by
  cases fs with
  | nil => rfl
  | cons k v tl => simp only [cloneF, stripF, clone_strip, cloneF_strip]

end

mutual

theorem clone_le (v : JValue) (s : Nat) : s ≤ (clone v s).2 := by
  cases v with
  | undefined => exact Nat.le_refl s
  | null => exact Nat.le_refl s
  | bool b => exact Nat.le_refl s
  | num n => exact Nat.le_refl s
  | str t => exact Nat.le_refl s
  | arr aid el pr =>
      have h1 := cloneL_le el (s + 1)
      have h2 := cloneF_le pr (cloneL el (s + 1)).2
      simp only [clone]
      omega
  | obj oid fs =>
      have h1 := cloneF_le fs (s + 1)
      simp only [clone]
      omega

theorem cloneL_le (l : JList) (s : Nat) : s ≤ (cloneL l s).2 := by
  cases l with
  | nil => exact Nat.le_refl s
  | cons v vs =>
      have h1 := clone_le v s
      have h2 := cloneL_le vs (clone v s).2
      simp only [cloneL]
      omega

theorem cloneF_le (fs : JFields) (s : Nat) : s ≤ (cloneF fs s).2 := by
  cases fs with
  | nil => exact Nat.le_refl s
  | cons k v tl =>
      have h1 := clone_le v s
      have h2 := cloneF_le tl (clone v s).2
      simp only [cloneF]
      omega

end

mutual

theorem clone_ids (v : JValue) (s : Nat) :
    ∀ i ∈ idsV (clone v s).1, s ≤ i := by
  cases v with
  | undefined => simp [clone, idsV]
  | null => simp [clone, idsV]
  | bool b => simp [clone, idsV]
  | num n => simp [clone, idsV]
  | str t => simp [clone, idsV]
  | arr aid el pr =>
      intro i hi
      simp only [clone, idsV, List.mem_cons, List.mem_append] at hi
      rcases hi with hi | hi | hi
      · omega
      · have := cloneL_ids el (s + 1) i hi
        omega
      · have h1 := cloneL_le el (s + 1)
        have := cloneF_ids pr (cloneL el (s + 1)).2 i hi
        omega
  | obj oid fs =>
      intro i hi
      simp only [clone, idsV, List.mem_cons] at hi
      rcases hi with hi | hi
      · omega
      · have := cloneF_ids fs (s + 1) i hi
        omega

theorem cloneL_ids (l : JList) (s : Nat) :
    ∀ i ∈ idsL (cloneL l s).1, s ≤ i := by
  cases l with
  | nil => simp [cloneL, idsL]
  | cons v vs =>
      intro i hi
      simp only [cloneL, idsL, List.mem_append] at hi
      rcases hi with hi | hi
      · exact clone_ids v s i hi
      · have h1 := clone_le v s
        have := cloneL_ids vs (clone v s).2 i hi
        omega

theorem cloneF_ids (fs : JFields) (s : Nat) :
    ∀ i ∈ idsF (cloneF fs s).1, s ≤ i := by
  cases fs with
  | nil => simp [cloneF, idsF]
  | cons k v tl =>
      intro i hi
      simp only [cloneF, idsF, List.mem_append] at hi
      rcases hi with hi | hi
      · exact clone_ids v s i hi
      · have h1 := clone_le v s
        have := cloneF_ids tl (clone v s).2 i hi
        omega

end

/-! Lemmas about `get`. -/

theorem get_strip (p : List Key) : ∀ v : JValue, get (stripIds v) p = stripIds (get v p) := by
  induction p with
  | nil => intro v; rfl
  | cons k ks ih =>
      intro v
      by_cases h : isNullish v = true
      · simp [get, isNullish_strip, h, stripIds]
      · simp only [Bool.not_eq_true] at h
        simp [get, isNullish_strip, h, jsIndex_strip, ih]

theorem get_notContainer (p : List Key) :
    ∀ v : JValue, isContainer v = false → isContainer (get v p) = false := by
  induction p with
  | nil => intro v h; simpa [get] using h
  | cons k ks ih =>
      intro v h
      by_cases hn : isNullish v = true
      · simp [get, hn, isContainer]
      · simp only [Bool.not_eq_true] at hn
        simp only [get, hn, Bool.false_eq_true, if_false]
        exact ih _ (jsIndex_notContainer h k)

/-! Lemmas about property assignment. -/

theorem assign_ok_isContainer {v : JValue} {k : Key} {w r : JValue}
    (h : assign v k w = .ok r) : isContainer v = true := by
  cases v with
  | undefined => simp [assign] at h
  | null => simp [assign] at h
  | bool b => simp [assign] at h
  | num n => simp [assign] at h
  | str t => simp [assign] at h
  | arr aid el pr => rfl
  | obj oid fs => rfl

theorem assign_shape {v : JValue} {k : Key} {w r : JValue}
    (h : assign v k w = .ok r) :
    rootIds r = rootIds v ∧ isArr r = isArr v ∧ isObj r = isObj v ∧
      isContainer r = isContainer v := by
  cases v with
  | undefined => simp [assign] at h
  | null => simp [assign] at h
  | bool b => simp [assign] at h
  | num n => simp [assign] at h
  | str t => simp [assign] at h
  | arr aid el pr =>
      cases k with
      | num n =>
          simp only [assign, Except.ok.injEq] at h
          subst h
          exact ⟨rfl, rfl, rfl, rfl⟩
      | str s =>
          simp only [assign] at h
          split at h
          · split at h
            · split at h
              · simp only [Except.ok.injEq] at h
                subst h
                exact ⟨rfl, rfl, rfl, rfl⟩
              · simp at h
            · simp at h
          · split at h
            · simp only [Except.ok.injEq] at h
              subst h
              exact ⟨rfl, rfl, rfl, rfl⟩
            · simp only [Except.ok.injEq] at h
              subst h
              exact ⟨rfl, rfl, rfl, rfl⟩
  | obj oid fs =>
      simp only [assign, Except.ok.injEq] at h
      subst h
      exact ⟨rfl, rfl, rfl, rfl⟩

theorem assign_jsIndex {v : JValue} {k : Key} {w r : JValue}
    (h : assign v k w = .ok r) : jsIndex r k = w := by
  cases v with
  | undefined => simp [assign] at h
  | null => simp [assign] at h
  | bool b => simp [assign] at h
  | num n => simp [assign] at h
  | str t => simp [assign] at h
  | arr aid el pr =>
      cases k with
      | num n =>
          simp only [assign, Except.ok.injEq] at h
          subst h
          simp [jsIndex, elemSet_get?]
      | str s =>
          simp only [assign] at h
          by_cases hl : s = "length"
          · rw [if_pos hl] at h
            split at h
            · rename_i m
              split at h
              · rename_i hm
                simp only [Except.ok.injEq] at h
                subst h
                simp [jsIndex, hl, resize_length, Int.toNat_of_nonneg hm]
              · simp at h
            · simp at h
          · rw [if_neg hl] at h
            cases hc : canonIndex s with
            | some n =>
                rw [hc] at h
                simp only [Except.ok.injEq] at h
                subst h
                simp [jsIndex, hl, hc, elemSet_get?]
            | none =>
                rw [hc] at h
                simp only [Except.ok.injEq] at h
                subst h
                simp [jsIndex, hl, hc, setF_lookupF]
  | obj oid fs =>
      simp only [assign, Except.ok.injEq] at h
      subst h
      simp [jsIndex, setF_lookupF]

theorem assign_ids {v : JValue} {k : Key} {w r : JValue}
    (h : assign v k w = .ok r) :
    ∀ i ∈ idsV r, i ∈ idsV v ∨ i ∈ idsV w := by
  cases v with
  | undefined => simp [assign] at h
  | null => simp [assign] at h
  | bool b => simp [assign] at h
  | num n => simp [assign] at h
  | str t => simp [assign] at h
  | arr aid el pr =>
      cases k with
      | num n =>
          simp only [assign, Except.ok.injEq] at h
          subst h
          intro i hi
          simp only [idsV, List.mem_cons, List.mem_append] at hi
          rcases hi with hi | hi | hi
          · exact Or.inl (by simp [idsV, hi])
          · rcases elemSet_ids i hi with hi' | hi'
            · exact Or.inl (by simp [idsV]; exact Or.inr (Or.inl hi'))
            · exact Or.inr hi'
          · exact Or.inl (by simp [idsV]; exact Or.inr (Or.inr hi))
      | str s =>
          simp only [assign] at h
          by_cases hl : s = "length"
          · rw [if_pos hl] at h
            split at h
            · split at h
              · simp only [Except.ok.injEq] at h
                subst h
                intro i hi
                simp only [idsV, List.mem_cons, List.mem_append] at hi
                rcases hi with hi | hi | hi
                · exact Or.inl (by simp [idsV, hi])
                · exact Or.inl (by simp [idsV]; exact Or.inr (Or.inl (resize_ids i hi)))
                · exact Or.inl (by simp [idsV]; exact Or.inr (Or.inr hi))
              · simp at h
            · simp at h
          · rw [if_neg hl] at h
            cases hc : canonIndex s with
            | some n =>
                rw [hc] at h
                simp only [Except.ok.injEq] at h
                subst h
                intro i hi
                simp only [idsV, List.mem_cons, List.mem_append] at hi
                rcases hi with hi | hi | hi
                · exact Or.inl (by simp [idsV, hi])
                · rcases elemSet_ids i hi with hi' | hi'
                  · exact Or.inl (by simp [idsV]; exact Or.inr (Or.inl hi'))
                  · exact Or.inr hi'
                · exact Or.inl (by simp [idsV]; exact Or.inr (Or.inr hi))
            | none =>
                rw [hc] at h
                simp only [Except.ok.injEq] at h
                subst h
                intro i hi
                simp only [idsV, List.mem_cons, List.mem_append] at hi
                rcases hi with hi | hi | hi
                · exact Or.inl (by simp [idsV, hi])
                · exact Or.inl (by simp [idsV]; exact Or.inr (Or.inl hi))
                · rcases setF_ids i hi with hi' | hi'
                  · exact Or.inl (by simp [idsV]; exact Or.inr (Or.inr hi'))
                  · exact Or.inr hi'
  | obj oid fs =>
      simp only [assign, Except.ok.injEq] at h
      subst h
      intro i hi
      simp only [idsV, List.mem_cons] at hi
      rcases hi with hi | hi
      · exact Or.inl (by simp [idsV, hi])
      · rcases setF_ids i hi with hi' | hi'
        · exact Or.inl (by simp [idsV]; exact Or.inr hi')
        · exact Or.inr hi'

theorem assign_ok_no_length {v : JValue} {k : Key} (w : JValue)
    (hc : isContainer v = true) (hnl : isArr v = true → k ≠ .str "length") :
    ∃ r, assign v k w = .ok r := by
  cases v with
  | undefined => simp [isContainer] at hc
  | null => simp [isContainer] at hc
  | bool b => simp [isContainer] at hc
  | num n => simp [isContainer] at hc
  | str t => simp [isContainer] at hc
  | arr aid el pr =>
      cases k with
      | num n => exact ⟨_, rfl⟩
      | str s =>
          have hs : s ≠ "length" := by
            intro hseq
            exact hnl rfl (by rw [hseq])
          cases hcan : canonIndex s with
          | some n =>
              exact ⟨.arr aid (el.elemSet n w) pr, by simp [assign, hs, hcan]⟩
          | none =>
              exact ⟨.arr aid el (pr.setF s w), by simp [assign, hs, hcan]⟩
  | obj oid fs => exact ⟨_, rfl⟩

theorem lastStepOk_assign {v : JValue} {k : Key} {value : JValue}
    (h : lastStepOk v k value = true) : ∃ r, assign v k value = .ok r := by
  cases v with
  | undefined => simp [lastStepOk] at h
  | null => simp [lastStepOk] at h
  | bool b => simp [lastStepOk] at h
  | num n => simp [lastStepOk] at h
  | str t => simp [lastStepOk] at h
  | arr aid el pr =>
      cases k with
      | num n => exact ⟨_, rfl⟩
      | str s =>
          by_cases hl : s = "length"
          · simp only [lastStepOk, if_pos hl] at h
            cases value with
            | num m =>
                have hm : (0 : Int) ≤ m := by simpa using h
                exact ⟨.arr aid (el.resize m.toNat) pr, by simp [assign, hl, hm]⟩
            | undefined => simp at h
            | null => simp at h
            | bool b => simp at h
            | str u => simp at h
            | arr a b c => simp at h
            | obj a b => simp at h
          · cases hcan : canonIndex s with
            | some n =>
                exact ⟨.arr aid (el.elemSet n value) pr, by simp [assign, hl, hcan]⟩
            | none =>
                exact ⟨.arr aid el (pr.setF s value), by simp [assign, hl, hcan]⟩
  | obj oid fs => exact ⟨_, rfl⟩

theorem lastStepOk_container {v : JValue} {k : Key} {value : JValue}
    (h : lastStepOk v k value = true) : isContainer v = true := by
  cases v <;> simp_all [lastStepOk, isContainer]

/-! Lemmas about the `in` test. -/

theorem keyIn_container {v : JValue} (hc : isContainer v = true) (k : Key) :
    keyIn v k = .ok (keyInB v k) := by
  simp [keyIn, hc]

theorem keyIn_ok {v : JValue} {k : Key} {b : Bool}
    (h : keyIn v k = .ok b) : isContainer v = true ∧ b = keyInB v k := by
  unfold keyIn at h
  by_cases hc : isContainer v = true
  · rw [if_pos hc] at h
    simp only [Except.ok.injEq] at h
    exact ⟨hc, h.symm⟩
  · rw [if_neg hc] at h
    simp at h

theorem keyInB_false_no_length {v : JValue} {k : Key}
    (h : keyInB v k = false) : isArr v = true → k ≠ .str "length" := by
  intro ha hk
  cases v with
  | arr aid el pr =>
      subst hk
      simp [keyInB] at h
  | undefined => simp [isArr] at ha
  | null => simp [isArr] at ha
  | bool b => simp [isArr] at ha
  | num n => simp [isArr] at ha
  | str t => simp [isArr] at ha
  | obj oid fs => simp [isArr] at ha

/-! Lemmas about `pathClear`. -/

theorem pathClear_container {v : JValue} {k : Key} {ks : List Key} {value : JValue}
    (h : pathClear v k ks value = true) : isContainer v = true := by
  cases ks with
  | nil => exact lastStepOk_container h
  | cons nk rest =>
      simp only [pathClear, Bool.and_eq_true] at h
      exact h.1

theorem lastStepOk_strip (v : JValue) (k : Key) (value : JValue) :
    lastStepOk (stripIds v) k value = lastStepOk v k value := by
  cases v <;> rfl

theorem pathClear_strip (ks : List Key) :
    ∀ (v : JValue) (k : Key) (value : JValue),
      pathClear (stripIds v) k ks value = pathClear v k ks value := by
  induction ks with
  | nil => intro v k value; exact lastStepOk_strip v k value
  | cons nk rest ih =>
      intro v k value
      by_cases hk : keyInB v k = true
      · simp only [pathClear, isContainer_strip, keyInB_strip, hk, if_pos,
          jsIndex_strip]
        rw [ih]
      · simp only [Bool.not_eq_true] at hk
        simp only [pathClear, isContainer_strip, keyInB_strip, hk,
          Bool.false_eq_true, if_false]

/-! Lemmas about the navigation loop of `set`. -/

theorem freshContainer_strip (nk : Key) (s : Nat) :
    stripIds (freshContainer nk s) = stripIds (freshContainer nk 0) := by
  cases nk <;> rfl

theorem freshContainer_ids (nk : Key) (s : Nat) :
    idsV (freshContainer nk s) = [s] := by
  cases nk <;> simp [freshContainer, idsV, idsL, idsF]

theorem freshContainer_isArr (nk : Key) (s : Nat) :
    isArr (freshContainer nk s) = nk.isNum := by
  cases nk <;> rfl

theorem freshContainer_isObj (nk : Key) (s : Nat) :
    isObj (freshContainer nk s) = !nk.isNum := by
  cases nk <;> rfl

theorem freshContainer_container (nk : Key) (s : Nat) :
    isContainer (freshContainer nk s) = true := by
  cases nk <;> rfl

theorem setLoop_ok_of_pathClear (ks : List Key) :
    ∀ (cur : JValue) (k : Key) (value : JValue) (sup : Nat),
      pathClear cur k ks value = true →
      ∃ r s', setLoop cur k ks value sup = .ok (r, s') := by
  induction ks with
  | nil =>
      intro cur k value sup h
      obtain ⟨r, hr⟩ := lastStepOk_assign h
      exact ⟨r, sup, by simp [setLoop, hr]⟩
  | cons nk rest ih =>
      intro cur k value sup h
      simp only [pathClear, Bool.and_eq_true] at h
      obtain ⟨hcont, hpc⟩ := h
      by_cases hb : keyInB cur k = true
      · rw [if_pos hb] at hpc
        have hnl : isArr cur = true → k ≠ .str "length" := by
          intro ha hk
          subst hk
          have hcc := pathClear_container hpc
          cases cur with
          | arr aid el pr => simp [jsIndex, isContainer] at hcc
          | undefined => simp [isArr] at ha
          | null => simp [isArr] at ha
          | bool b => simp [isArr] at ha
          | num n => simp [isArr] at ha
          | str t => simp [isArr] at ha
          | obj oid fs => simp [isArr] at ha
        obtain ⟨r', s'', hr'⟩ := ih (jsIndex cur k) nk value sup hpc
        obtain ⟨out, hout⟩ := assign_ok_no_length r' hcont hnl
        exact ⟨out, s'', by
          simp [setLoop, keyIn_container hcont, hb, hr', hout]⟩
      · simp only [Bool.not_eq_true] at hb
        rw [if_neg (by simp [hb])] at hpc
        obtain ⟨cur2, hcur2⟩ := assign_ok_no_length (v := cur) (k := k)
          (freshContainer nk sup) hcont (keyInB_false_no_length hb)
        have hread : jsIndex cur2 k = freshContainer nk sup := assign_jsIndex hcur2
        have hshape := assign_shape hcur2
        have hpc' : pathClear (freshContainer nk sup) nk rest value = true := by
          rw [← pathClear_strip rest (freshContainer nk sup), freshContainer_strip,
            pathClear_strip]
          exact hpc
        obtain ⟨r', s'', hr'⟩ := ih (freshContainer nk sup) nk value (sup + 1) hpc'
        obtain ⟨out, hout⟩ := assign_ok_no_length (v := cur2) (k := k) r'
          (by rw [hshape.2.2.2]; exact hcont)
          (fun ha => keyInB_false_no_length hb (by rw [← hshape.2.1]; exact ha))
        refine ⟨out, s'', ?_⟩
        simp [setLoop, keyIn_container hcont, hb, hcur2, hread, hr', hout]

theorem setLoop_shape (ks : List Key) :
    ∀ (cur : JValue) (k : Key) (value : JValue) (sup : Nat) (r : JValue) (s' : Nat),
      setLoop cur k ks value sup = .ok (r, s') →
      rootIds r = rootIds cur ∧ isArr r = isArr cur ∧ isObj r = isObj cur ∧
        isContainer r = isContainer cur := by
  induction ks with
  | nil =>
      intro cur k value sup r s' h
      cases hasg : assign cur k value with
      | error e => simp [setLoop, hasg] at h
      | ok r0 =>
          simp only [setLoop, hasg, Except.ok.injEq, Prod.mk.injEq] at h
          obtain ⟨h1, h2⟩ := h
          subst h1
          exact assign_shape hasg
  | cons nk rest ih =>
      intro cur k value sup r s' h
      cases hk : keyIn cur k with
      | error e => simp [setLoop, hk] at h
      | ok b =>
          cases b with
          | true =>
              cases hrec : setLoop (jsIndex cur k) nk rest value sup with
              | error e => simp [setLoop, hk, hrec] at h
              | ok p =>
                  cases hasg : assign cur k p.1 with
                  | error e => simp [setLoop, hk, hrec, hasg] at h
                  | ok out =>
                      simp only [setLoop, hk, hrec, hasg, Except.ok.injEq,
                        Prod.mk.injEq] at h
                      obtain ⟨h1, h2⟩ := h
                      subst h1
                      exact assign_shape hasg
          | false =>
              cases hasg2 : assign cur k (freshContainer nk sup) with
              | error e => simp [setLoop, hk, hasg2] at h
              | ok cur2 =>
                  cases hrec : setLoop (jsIndex cur2 k) nk rest value (sup + 1) with
                  | error e => simp [setLoop, hk, hasg2, hrec] at h
                  | ok p =>
                      cases hasg : assign cur2 k p.1 with
                      | error e => simp [setLoop, hk, hasg2, hrec, hasg] at h
                      | ok out =>
                          simp only [setLoop, hk, hasg2, hrec, hasg,
                            Except.ok.injEq, Prod.mk.injEq] at h
                          obtain ⟨h1, h2⟩ := h
                          subst h1
                          have s1 := assign_shape hasg
                          have s2 := assign_shape hasg2
                          exact ⟨s1.1.trans s2.1, (s1.2.1).trans s2.2.1,
                            (s1.2.2.1).trans s2.2.2.1, (s1.2.2.2).trans s2.2.2.2⟩

theorem setLoop_spine (ks : List Key) :
    ∀ (cur : JValue) (k : Key) (value : JValue) (sup : Nat) (r : JValue) (s' : Nat),
      setLoop cur k ks value sup = .ok (r, s') →
      ∃ pre, spineIds r (k :: ks) = pre ++ rootIds value ∧
        ∀ i ∈ pre, i ∈ idsV cur ∨ sup ≤ i := by
  induction ks with
  | nil =>
      intro cur k value sup r s' h
      cases hasg : assign cur k value with
      | error e => simp [setLoop, hasg] at h
      | ok r0 =>
          simp only [setLoop, hasg, Except.ok.injEq, Prod.mk.injEq] at h
          obtain ⟨h1, h2⟩ := h
          subst h1
          refine ⟨rootIds cur, ?_, ?_⟩
          · simp [spineIds, assign_jsIndex hasg, (assign_shape hasg).1]
          · intro i hi
            exact Or.inl (rootIds_sub_idsV cur i hi)
  | cons nk rest ih =>
      intro cur k value sup r s' h
      cases hk : keyIn cur k with
      | error e => simp [setLoop, hk] at h
      | ok b =>
          cases b with
          | true =>
              cases hrec : setLoop (jsIndex cur k) nk rest value sup with
              | error e => simp [setLoop, hk, hrec] at h
              | ok p =>
                  cases hasg : assign cur k p.1 with
                  | error e => simp [setLoop, hk, hrec, hasg] at h
                  | ok out =>
                      simp only [setLoop, hk, hrec, hasg, Except.ok.injEq,
                        Prod.mk.injEq] at h
                      obtain ⟨h1, h2⟩ := h
                      subst h1
                      obtain ⟨pre', hsp, hmem⟩ :=
                        ih (jsIndex cur k) nk value sup p.1 p.2 hrec
                      refine ⟨rootIds out ++ pre', ?_, ?_⟩
                      · rw [spineIds, assign_jsIndex hasg, hsp, List.append_assoc]
                      · intro i hi
                        rcases List.mem_append.mp hi with hi | hi
                        · rw [(assign_shape hasg).1] at hi
                          exact Or.inl (rootIds_sub_idsV cur i hi)
                        · rcases hmem i hi with hi' | hi'
                          · exact Or.inl (jsIndex_ids cur k i hi')
                          · exact Or.inr hi'
          | false =>
              cases hasg2 : assign cur k (freshContainer nk sup) with
              | error e => simp [setLoop, hk, hasg2] at h
              | ok cur2 =>
                  cases hrec : setLoop (jsIndex cur2 k) nk rest value (sup + 1) with
                  | error e => simp [setLoop, hk, hasg2, hrec] at h
                  | ok p =>
                      cases hasg : assign cur2 k p.1 with
                      | error e => simp [setLoop, hk, hasg2, hrec, hasg] at h
                      | ok out =>
                          simp only [setLoop, hk, hasg2, hrec, hasg,
                            Except.ok.injEq, Prod.mk.injEq] at h
                          obtain ⟨h1, h2⟩ := h
                          subst h1
                          obtain ⟨pre', hsp, hmem⟩ :=
                            ih (jsIndex cur2 k) nk value (sup + 1) p.1 p.2 hrec
                          refine ⟨rootIds out ++ pre', ?_, ?_⟩
                          · rw [spineIds, assign_jsIndex hasg, hsp, List.append_assoc]
                          · intro i hi
                            rcases List.mem_append.mp hi with hi | hi
                            · rw [(assign_shape hasg).1, (assign_shape hasg2).1] at hi
                              exact Or.inl (rootIds_sub_idsV cur i hi)
                            · rcases hmem i hi with hi' | hi'
                              · rw [assign_jsIndex hasg2, freshContainer_ids] at hi'
                                simp only [List.mem_singleton] at hi'
                                omega
                              · exact Or.inr (by omega)

/-! Lemmas about the delete walk. -/

theorem writeChild_ids (v : JValue) (k : Key) (c : JValue) :
    ∀ i ∈ idsV (writeChild v k c), i ∈ idsV v ∨ i ∈ idsV c := by
  cases v with
  | undefined => intro i hi; exact Or.inl hi
  | null => intro i hi; exact Or.inl hi
  | bool b => intro i hi; exact Or.inl hi
  | num n => intro i hi; exact Or.inl hi
  | str t => intro i hi; exact Or.inl hi
  | obj oid fs =>
      intro i hi
      simp only [writeChild, idsV, List.mem_cons] at hi
      rcases hi with hi | hi
      · exact Or.inl (by simp [idsV, hi])
      · rcases setF_ids i hi with hi' | hi'
        · exact Or.inl (by simp [idsV]; exact Or.inr hi')
        · exact Or.inr hi'
  | arr aid el pr =>
      cases k with
      | num n =>
          intro i hi
          simp only [writeChild, idsV, List.mem_cons, List.mem_append] at hi
          rcases hi with hi | hi | hi
          · exact Or.inl (by simp [idsV, hi])
          · rcases elemSet_ids i hi with hi' | hi'
            · exact Or.inl (by simp [idsV]; exact Or.inr (Or.inl hi'))
            · exact Or.inr hi'
          · exact Or.inl (by simp [idsV]; exact Or.inr (Or.inr hi))
      | str s =>
          by_cases hl : s = "length"
          · simp only [writeChild, if_pos hl]
            intro i hi
            exact Or.inl hi
          · cases hcan : canonIndex s with
            | some n =>
                simp only [writeChild, if_neg hl, hcan]
                intro i hi
                simp only [idsV, List.mem_cons, List.mem_append] at hi
                rcases hi with hi | hi | hi
                · exact Or.inl (by simp [idsV, hi])
                · rcases elemSet_ids i hi with hi' | hi'
                  · exact Or.inl (by simp [idsV]; exact Or.inr (Or.inl hi'))
                  · exact Or.inr hi'
                · exact Or.inl (by simp [idsV]; exact Or.inr (Or.inr hi))
            | none =>
                simp only [writeChild, if_neg hl, hcan]
                intro i hi
                simp only [idsV, List.mem_cons, List.mem_append] at hi
                rcases hi with hi | hi | hi
                · exact Or.inl (by simp [idsV, hi])
                · exact Or.inl (by simp [idsV]; exact Or.inr (Or.inl hi))
                · rcases setF_ids i hi with hi' | hi'
                  · exact Or.inl (by simp [idsV]; exact Or.inr (Or.inr hi'))
                  · exact Or.inr hi'

theorem delWalk_ids (ks : List Key) :
    ∀ (ppStr : String) (fk : Key) (v r : JValue),
      delWalk ppStr fk v ks = .ok r → ∀ i ∈ idsV r, i ∈ idsV v := by
  induction ks with
  | nil =>
      intro ppStr fk v r h
      by_cases hn : isNullish v = true
      · simp [delWalk, hn] at h
      · simp only [Bool.not_eq_true] at hn
        cases v with
        | undefined => simp [isNullish] at hn
        | null => simp [isNullish] at hn
        | bool b => simp [delWalk, hn] at h
        | num n => simp [delWalk, hn] at h
        | str t => simp [delWalk, hn] at h
        | arr aid el pr =>
            cases fk with
            | num n =>
                simp only [delWalk, hn, Bool.false_eq_true, if_false,
                  Except.ok.injEq] at h
                subst h
                intro i hi
                simp only [idsV, List.mem_cons, List.mem_append] at hi
                simp only [idsV, List.mem_cons, List.mem_append]
                rcases hi with hi | hi | hi
                · exact Or.inl hi
                · exact Or.inr (Or.inl (splice1_ids i hi))
                · exact Or.inr (Or.inr hi)
            | str s => simp [delWalk, hn] at h
        | obj oid fs =>
            simp only [delWalk, hn, Bool.false_eq_true, if_false,
              Except.ok.injEq] at h
            subst h
            intro i hi
            simp only [idsV, List.mem_cons] at hi
            simp only [idsV, List.mem_cons]
            rcases hi with hi | hi
            · exact Or.inl hi
            · exact Or.inr (removeF_ids i hi)
  | cons k ks ih =>
      intro ppStr fk v r h
      by_cases hn : isNullish v = true
      · simp [delWalk, hn] at h
      · simp only [Bool.not_eq_true] at hn
        cases hrec : delWalk ppStr fk (jsIndex v k) ks with
        | error e => simp [delWalk, hn, hrec] at h
        | ok child =>
            simp only [delWalk, hn, Bool.false_eq_true, if_false, hrec,
              Except.ok.injEq] at h
            subst h
            intro i hi
            rcases writeChild_ids v k child i hi with hi' | hi'
            · exact hi'
            · exact jsIndex_ids v k i (ih ppStr fk (jsIndex v k) child hrec i hi')

theorem get_container_of_obj {w : JValue} {ks : List Key} {oid : Nat} {fs : JFields}
    (h : get w ks = .obj oid fs) : isContainer w = true := by
  by_cases hc : isContainer w = true
  · exact hc
  · simp only [Bool.not_eq_true] at hc
    have h2 := get_notContainer ks w hc
    rw [h] at h2
    simp [isContainer] at h2

theorem delWalk_noop (ks : List Key) :
    ∀ (v : JValue) (ppStr : String) (fk : Key) (oid : Nat) (fs : JFields),
      get v ks = .obj oid fs → fs.lookupF (renderKey fk) = none →
      delWalk ppStr fk v ks = .ok v := by
  induction ks with
  | nil =>
      intro v ppStr fk oid fs h habs
      simp only [get] at h
      subst h
      simp [delWalk, isNullish, removeF_absent habs]
  | cons k ks ih =>
      intro v ppStr fk oid fs h habs
      have hcont : isContainer v = true := get_container_of_obj h
      have hn : isNullish v = false := by
        cases v <;> simp_all [isContainer, isNullish]
      simp only [get, hn, Bool.false_eq_true, if_false] at h
      cases v with
      | undefined => simp [isContainer] at hcont
      | null => simp [isContainer] at hcont
      | bool b => simp [isContainer] at hcont
      | num n => simp [isContainer] at hcont
      | str t => simp [isContainer] at hcont
      | obj oid2 fs2 =>
          cases hlk : fs2.lookupF (renderKey k) with
          | none =>
              rw [show jsIndex (.obj oid2 fs2) k = .undefined by
                simp [jsIndex, hlk]] at h
              have := get_container_of_obj h
              simp [isContainer] at this
          | some c =>
              have hji : jsIndex (.obj oid2 fs2) k = c := by simp [jsIndex, hlk]
              rw [hji] at h
              have hrec := ih c ppStr fk oid fs h habs
              simp only [delWalk, isNullish, Bool.false_eq_true, if_false, hji, hrec,
                Except.ok.injEq]
              simp [writeChild, setF_of_lookupF hlk]
      | arr aid el pr =>
          cases k with
          | num n =>
              cases hg : el.get? n with
              | none =>
                  rw [show jsIndex (.arr aid el pr) (.num n) = .undefined by
                    simp [jsIndex, hg]] at h
                  have := get_container_of_obj h
                  simp [isContainer] at this
              | some c =>
                  have hji : jsIndex (.arr aid el pr) (.num n) = c := by
                    simp [jsIndex, hg]
                  rw [hji] at h
                  have hrec := ih c ppStr fk oid fs h habs
                  simp only [delWalk, isNullish, Bool.false_eq_true, if_false, hji,
                    hrec, Except.ok.injEq]
                  simp [writeChild, elemSet_of_get? hg]
          | str s =>
              by_cases hl : s = "length"
              · rw [show jsIndex (.arr aid el pr) (.str s) = .num el.length by
                  simp [jsIndex, hl]] at h
                have := get_container_of_obj h
                simp [isContainer] at this
              · cases hcan : canonIndex s with
                | some n =>
                    cases hg : el.get? n with
                    | none =>
                        rw [show jsIndex (.arr aid el pr) (.str s) = .undefined by
                          simp [jsIndex, hl, hcan, hg]] at h
                        have := get_container_of_obj h
                        simp [isContainer] at this
                    | some c =>
                        have hji : jsIndex (.arr aid el pr) (.str s) = c := by
                          simp [jsIndex, hl, hcan, hg]
                        rw [hji] at h
                        have hrec := ih c ppStr fk oid fs h habs
                        simp only [delWalk, isNullish, Bool.false_eq_true, if_false,
                          hji, hrec, Except.ok.injEq]
                        simp [writeChild, hl, hcan, elemSet_of_get? hg]
                | none =>
                    cases hg : pr.lookupF s with
                    | none =>
                        rw [show jsIndex (.arr aid el pr) (.str s) = .undefined by
                          simp [jsIndex, hl, hcan, hg]] at h
                        have := get_container_of_obj h
                        simp [isContainer] at this
                    | some c =>
                        have hji : jsIndex (.arr aid el pr) (.str s) = c := by
                          simp [jsIndex, hl, hcan, hg]
                        rw [hji] at h
                        have hrec := ih c ppStr fk oid fs h habs
                        simp only [delWalk, isNullish, Bool.false_eq_true, if_false,
                          hji, hrec, Except.ok.injEq]
                        simp [writeChild, hl, hcan, setF_of_lookupF hg]

/-! Lemmas about read spines. -/

theorem spineIds_sub_idsV (p : List Key) :
    ∀ v : JValue, ∀ i ∈ spineIds v p, i ∈ idsV v := by
  induction p with
  | nil => intro v; exact rootIds_sub_idsV v
  | cons k ks ih =>
      intro v i hi
      simp only [spineIds, List.mem_append] at hi
      rcases hi with hi | hi
      · exact rootIds_sub_idsV v i hi
      · exact jsIndex_ids v k i (ih (jsIndex v k) i hi)

/-! Lemmas about the batch runner. -/

theorem applyGo_strict_errors (source : JValue) (ops : List Operation) :
    ∀ (i : Nat) (r : JValue) (sup : Nat),
      (applyGo source true ops i r sup).errors = [] := by
  induction ops with
  | nil => intro i r sup; rfl
  | cons op rest ih =>
      intro i r sup
      cases hexec : executeOperation r op sup with
      | ok p => simp [applyGo, hexec, ih]
      | error msg => simp [applyGo, hexec]

theorem applyGo_chain (source : JValue) (strict : Bool) (pre : List Operation) :
    ∀ (ops' : List Operation) (i : Nat) (r : JValue) (sup : Nat)
      (r' : JValue) (s' : Nat),
      runOps r sup pre = .ok (r', s') →
      applyGo source strict (pre ++ ops') i r sup =
        applyGo source strict ops' (i + pre.length) r' s' := by
  induction pre with
  | nil =>
      intro ops' i r sup r' s' h
      simp only [runOps, Except.ok.injEq, Prod.mk.injEq] at h
      obtain ⟨h1, h2⟩ := h
      subst h1
      subst h2
      simp
  | cons op rest ih =>
      intro ops' i r sup r' s' h
      cases hexec : executeOperation r op sup with
      | error e => simp [runOps, hexec] at h
      | ok p =>
          simp only [runOps, hexec] at h
          have hrec := ih ops' (i + 1) p.1 p.2 r' s' h
          have harith : i + (rest.length + 1) = (i + 1) + rest.length := by omega
          simp only [List.cons_append, applyGo, hexec, List.length_cons, harith]
          exact hrec

theorem applyGo_strict_of_errors (source : JValue) (ops : List Operation) :
    ∀ (i : Nat) (r : JValue) (sup : Nat) (e : OperationError),
      (applyGo source false ops i r sup).errors = [e] →
      ∃ s2, applyGo source true ops i r sup = ⟨.error e.reason, [], s2⟩ := by
  induction ops with
  | nil => intro i r sup e h; simp [applyGo] at h
  | cons op rest ih =>
      intro i r sup e h
      cases hexec : executeOperation r op sup with
      | ok p =>
          simp only [applyGo, hexec] at h ⊢
          exact ih (i + 1) p.1 p.2 e h
      | error msg =>
          simp only [applyGo, hexec, Bool.false_eq_true, if_false,
            List.cons.injEq, and_true] at h
          subst h
          exact ⟨sup, by simp [applyGo, hexec]⟩

/-! Helpers for reasoning about the reason-string templates. -/

theorem ne_of_data_ne {s t : String} (h : s.data ≠ t.data) : s ≠ t :=
  fun he => h (by rw [he])

theorem append_take_ne {a b : List Char} (n : Nat) (hna : n ≤ a.length)
    (hnb : n ≤ b.length) (hne : a.take n ≠ b.take n) (c d : List Char) :
    a ++ c ≠ b ++ d := by
  intro h
  apply hne
  have h2 := congrArg (List.take n) h
  rwa [List.take_append_of_le_length hna, List.take_append_of_le_length hnb] at h2

theorem append_take_ne_right {a b : List Char} (n : Nat) (hna : n ≤ a.length)
    (hne : a.take n ≠ b.take n) (c : List Char) :
    a ++ c ≠ b := by
  intro h
  apply hne
  have h2 := congrArg (List.take n) h
  rwa [List.take_append_of_le_length hna] at h2

theorem append_suffix_ne {s t : List Char} (hlen : s.length = t.length)
    (hne : s ≠ t) (a b : List Char) : a ++ s ≠ b ++ t := by
  intro h
  have hl2 : a.length = b.length := by
    have hh := congrArg List.length h
    simp only [List.length_append, hlen] at hh
    omega
  exact hne (List.append_inj h hl2).2

theorem msgNotArray_data (p : List Key) :
    (msgNotArray p).data =
      ("Target at path ".data ++ (pathJoin p).data) ++ " is not an array".data := by
  simp [msgNotArray, String.data_append]

theorem msgNotString_data (p : List Key) :
    (msgNotString p).data =
      ("Target at path ".data ++ (pathJoin p).data) ++ " is not a string".data := by
  simp [msgNotString, String.data_append]

theorem msgNotAppendable_data (p : List Key) :
    (msgNotAppendable p).data =
      ("Target at path ".data ++ (pathJoin p).data) ++
        " is not an array or string".data := by
  simp [msgNotAppendable, String.data_append]

theorem msgMissingParent_data (p : List Key) :
    (msgMissingParent p).data =
      ("Parent path ".data ++ (pathJoin p).data) ++ " does not exist".data := by
  simp [msgMissingParent, String.data_append]

theorem msgNotObject_data (p : List Key) :
    (msgNotObject p).data =
      "Cannot delete from non-object at ".data ++ (pathJoin p).data := by
  simp [msgNotObject, String.data_append]

theorem msgInvalidIndex_data (s : String) :
    (msgInvalidIndex s).data = "Invalid array index: ".data ++ s.data := by
  simp [msgInvalidIndex, String.data_append]

theorem msgRootDelete_data :
    msgRootDelete.data = "Cannot delete root object".data := rfl

/-- CLAIM C4 (corrected).  The failing-path description and the
distinctness of the failure kinds.  Positive part: the reason strings of the
three shape validators (`validateArray`, `validateString`,
`validateAppendable`) literally contain the dot-joined failing path; the
missing-parent and not-a-container (non-object) reasons literally contain
the dot-joined *parent* path, and the invalid-index reason contains the
offending key; and the seven failure kinds named by the claim — not-an-array,
not-a-string, not-an-array-or-string, not-a-container, root-deletion,
missing-parent, invalid-index — are pairwise distinct message shapes: no two
different kinds ever produce the same reason string, for any paths or keys.
The claim's universal "every failing operation literally describes the
failing path" part is refuted by `reason_shapes_counterexample`. -/
theorem reason_shapes :
    (∀ p : List Key, List.IsInfix (pathJoin p).data (msgNotArray p).data) ∧
    (∀ p : List Key, List.IsInfix (pathJoin p).data (msgNotString p).data) ∧
    (∀ p : List Key, List.IsInfix (pathJoin p).data (msgNotAppendable p).data) ∧
    (∀ p : List Key, List.IsInfix (pathJoin p).data (msgMissingParent p).data) ∧
    (∀ p : List Key, List.IsInfix (pathJoin p).data (msgNotObject p).data) ∧
    (∀ s : String, List.IsInfix s.data (msgInvalidIndex s).data) ∧
    (∀ p q : List Key, msgNotArray p ≠ msgNotString q) ∧
    (∀ p q : List Key, msgNotArray p ≠ msgNotAppendable q) ∧
    (∀ p q : List Key, msgNotString p ≠ msgNotAppendable q) ∧
    (∀ p q : List Key, msgNotArray p ≠ msgMissingParent q) ∧
    (∀ p q : List Key, msgNotArray p ≠ msgNotObject q) ∧
    (∀ (p : List Key) (s : String), msgNotArray p ≠ msgInvalidIndex s) ∧
    (∀ p : List Key, msgNotArray p ≠ msgRootDelete) ∧
    (∀ p q : List Key, msgNotString p ≠ msgMissingParent q) ∧
    (∀ p q : List Key, msgNotString p ≠ msgNotObject q) ∧
    (∀ (p : List Key) (s : String), msgNotString p ≠ msgInvalidIndex s) ∧
    (∀ p : List Key, msgNotString p ≠ msgRootDelete) ∧
    (∀ p q : List Key, msgNotAppendable p ≠ msgMissingParent q) ∧
    (∀ p q : List Key, msgNotAppendable p ≠ msgNotObject q) ∧
    (∀ (p : List Key) (s : String), msgNotAppendable p ≠ msgInvalidIndex s) ∧
    (∀ p : List Key, msgNotAppendable p ≠ msgRootDelete) ∧
    (∀ p q : List Key, msgMissingParent p ≠ msgNotObject q) ∧
    (∀ (p : List Key) (s : String), msgMissingParent p ≠ msgInvalidIndex s) ∧
    (∀ p : List Key, msgMissingParent p ≠ msgRootDelete) ∧
    (∀ (s : String) (q : List Key), msgInvalidIndex s ≠ msgNotObject q) ∧
    (∀ s : String, msgInvalidIndex s ≠ msgRootDelete) ∧
    (∀ q : List Key, msgNotObject q ≠ msgRootDelete) := by
  refine ⟨?_, ?_, ?_, ?_, ?_, ?_, ?_, ?_, ?_, ?_, ?_, ?_, ?_, ?_, ?_, ?_, ?_,
    ?_, ?_, ?_, ?_, ?_, ?_, ?_, ?_, ?_, ?_⟩
  · intro p
    exact ⟨"Target at path ".data, " is not an array".data, (msgNotArray_data p).symm⟩
  · intro p
    exact ⟨"Target at path ".data, " is not a string".data, (msgNotString_data p).symm⟩
  · intro p
    exact ⟨"Target at path ".data, " is not an array or string".data,
      (msgNotAppendable_data p).symm⟩
  · intro p
    exact ⟨"Parent path ".data, " does not exist".data, (msgMissingParent_data p).symm⟩
  · intro p
    exact ⟨"Cannot delete from non-object at ".data, [],
      by rw [List.append_nil]; exact (msgNotObject_data p).symm⟩
  · intro s
    exact ⟨"Invalid array index: ".data, [],
      by rw [List.append_nil]; exact (msgInvalidIndex_data s).symm⟩
  · intro p q
    apply ne_of_data_ne
    rw [msgNotArray_data, msgNotString_data]
    exact append_suffix_ne (by decide) (by decide) _ _
  · intro p q
    apply ne_of_data_ne
    rw [msgNotArray_data, msgNotAppendable_data,
      (by decide :
        " is not an array or string".data = " is not an".data ++ " array or string".data),
      ← List.append_assoc]
    exact append_suffix_ne (by decide) (by decide) _ _
  · intro p q
    apply ne_of_data_ne
    rw [msgNotString_data, msgNotAppendable_data,
      (by decide :
        " is not an array or string".data = " is not an".data ++ " array or string".data),
      ← List.append_assoc]
    exact append_suffix_ne (by decide) (by decide) _ _
  · intro p q
    apply ne_of_data_ne
    rw [msgNotArray_data, msgMissingParent_data, List.append_assoc, List.append_assoc]
    exact append_take_ne 1 (by decide) (by decide) (by decide) _ _
  · intro p q
    apply ne_of_data_ne
    rw [msgNotArray_data, msgNotObject_data, List.append_assoc]
    exact append_take_ne 1 (by decide) (by decide) (by decide) _ _
  · intro p s
    apply ne_of_data_ne
    rw [msgNotArray_data, msgInvalidIndex_data, List.append_assoc]
    exact append_take_ne 1 (by decide) (by decide) (by decide) _ _
  · intro p
    apply ne_of_data_ne
    rw [msgNotArray_data, msgRootDelete_data, List.append_assoc]
    exact append_take_ne_right 1 (by decide) (by decide) _
  · intro p q
    apply ne_of_data_ne
    rw [msgNotString_data, msgMissingParent_data, List.append_assoc, List.append_assoc]
    exact append_take_ne 1 (by decide) (by decide) (by decide) _ _
  · intro p q
    apply ne_of_data_ne
    rw [msgNotString_data, msgNotObject_data, List.append_assoc]
    exact append_take_ne 1 (by decide) (by decide) (by decide) _ _
  · intro p s
    apply ne_of_data_ne
    rw [msgNotString_data, msgInvalidIndex_data, List.append_assoc]
    exact append_take_ne 1 (by decide) (by decide) (by decide) _ _
  · intro p
    apply ne_of_data_ne
    rw [msgNotString_data, msgRootDelete_data, List.append_assoc]
    exact append_take_ne_right 1 (by decide) (by decide) _
  · intro p q
    apply ne_of_data_ne
    rw [msgNotAppendable_data, msgMissingParent_data, List.append_assoc,
      List.append_assoc]
    exact append_take_ne 1 (by decide) (by decide) (by decide) _ _
  · intro p q
    apply ne_of_data_ne
    rw [msgNotAppendable_data, msgNotObject_data, List.append_assoc]
    exact append_take_ne 1 (by decide) (by decide) (by decide) _ _
  · intro p s
    apply ne_of_data_ne
    rw [msgNotAppendable_data, msgInvalidIndex_data, List.append_assoc]
    exact append_take_ne 1 (by decide) (by decide) (by decide) _ _
  · intro p
    apply ne_of_data_ne
    rw [msgNotAppendable_data, msgRootDelete_data, List.append_assoc]
    exact append_take_ne_right 1 (by decide) (by decide) _
  · intro p q
    apply ne_of_data_ne
    rw [msgMissingParent_data, msgNotObject_data, List.append_assoc]
    exact append_take_ne 1 (by decide) (by decide) (by decide) _ _
  · intro p s
    apply ne_of_data_ne
    rw [msgMissingParent_data, msgInvalidIndex_data, List.append_assoc]
    exact append_take_ne 1 (by decide) (by decide) (by decide) _ _
  · intro p
    apply ne_of_data_ne
    rw [msgMissingParent_data, msgRootDelete_data, List.append_assoc]
    exact append_take_ne_right 1 (by decide) (by decide) _
  · intro s q
    apply ne_of_data_ne
    rw [msgInvalidIndex_data, msgNotObject_data]
    exact append_take_ne 1 (by decide) (by decide) (by decide) _ _
  · intro s
    apply ne_of_data_ne
    rw [msgInvalidIndex_data, msgRootDelete_data]
    exact append_take_ne_right 1 (by decide) (by decide) _
  · intro q
    apply ne_of_data_ne
    rw [msgNotObject_data, msgRootDelete_data]
    exact append_take_ne_right 15 (by decide) (by decide) _

/-! Unfolding lemma for `deleteOp` on a path given as parent plus final key. -/

theorem deleteOp_concat (doc : JValue) (pp : List Key) (fk : Key) (sup : Nat) :
    deleteOp doc (pp ++ [fk]) sup =
      match delWalk (pathJoin pp) fk (clone doc sup).1 pp with
      | .error e => .error e
      | .ok r => .ok (r, (clone doc sup).2) := by
  rcases hcons : pp ++ [fk] with _ | ⟨a, as⟩
  · simp at hcons
  · show (match delWalk (pathJoin ((a :: as).dropLast)) (((a :: as).getLast?).getD (.str ""))
        (clone doc sup).1 ((a :: as).dropLast) with
      | .error e => .error e
      | .ok r => .ok (r, (clone doc sup).2) : Except String (JValue × Nat)) = _
    rw [← hcons, List.dropLast_concat, List.getLast?_concat]
    rfl

/-- CLAIM C1 (confirmed).  Non-strict first failure: if the operations
before index `k` succeed on the running copy and the operation at index `k`
fails with reason `msg`, then `apply` under a non-strict config returns the
original `source` value itself (not the partially applied running result and
not a copy: in the identity-tagged model the returned document is
tag-for-tag the `source` argument), records exactly one `OperationError`
carrying index `k`, the failing operation, and `msg` — and the result does
not depend on the operations after index `k` (the suffix `post` is
arbitrary and untouched). -/
theorem apply_nonstrict_first_failure (source : JValue) (pre : List Operation)
    (op : Operation) (post : List Operation) (cfg : Option Config) (sup : Nat)
    (r' : JValue) (s' : Nat) (msg : String)
    (hstrict : strictOf cfg = false)
    (hpre : runOps (clone source sup).1 (clone source sup).2 pre = .ok (r', s'))
    (hfail : executeOperation r' op s' = .error msg) :
    apply source (pre ++ op :: post) cfg sup =
      ⟨.ok source, [⟨pre.length, op, msg⟩], s'⟩ := by
  show applyGo source (strictOf cfg) (pre ++ op :: post) 0
      (clone source sup).1 (clone source sup).2 = _
  rw [hstrict, applyGo_chain source false pre (op :: post) 0
      (clone source sup).1 (clone source sup).2 r' s' hpre]
  simp [applyGo, hfail]

/-- Witness for C1 at a concrete batch: `{a: 1}` with a successful write,
then a failing root delete, then a further (never executed) write. -/
theorem apply_nonstrict_first_failure_witness :
    apply (.obj 0 (.cons "a" (.num 1) .nil))
      [⟨[.str "a"], "set", .num 2⟩, ⟨[], "delete", .undefined⟩,
        ⟨[.str "zz"], "set", .num 9⟩]
      (some ⟨some false⟩) 10 =
      ⟨.ok (.obj 0 (.cons "a" (.num 1) .nil)),
        [⟨1, ⟨[], "delete", .undefined⟩, msgRootDelete⟩], 12⟩ :=
  apply_nonstrict_first_failure (.obj 0 (.cons "a" (.num 1) .nil))
    [⟨[.str "a"], "set", .num 2⟩] ⟨[], "delete", .undefined⟩
    [⟨[.str "zz"], "set", .num 9⟩] (some ⟨some false⟩) 10
    (.obj 11 (.cons "a" (.num 2) .nil)) 12 msgRootDelete rfl (by decide) (by decide)

/-- CLAIM C5 (confirmed).  On the same source, batch and supply, if the
non-strict run records the single error `e`, then the strict run raises an
error whose message is exactly `e.reason`; and a missing config or a config
with the `strict` flag absent behaves exactly as strict mode. -/
theorem strict_matches_nonstrict_reason (source : JValue) (ops : List Operation)
    (sup : Nat) :
    (∀ e : OperationError,
      (apply source ops (some ⟨some false⟩) sup).errors = [e] →
      ∃ s2, apply source ops (some ⟨some true⟩) sup =
        ⟨.error e.reason, [], s2⟩) ∧
    apply source ops none sup = apply source ops (some ⟨some true⟩) sup ∧
    apply source ops (some ⟨none⟩) sup = apply source ops (some ⟨some true⟩) sup := by
  refine ⟨?_, rfl, rfl⟩
  intro e h
  exact applyGo_strict_of_errors source ops 0 (clone source sup).1
    (clone source sup).2 e h

/-- Witness for C5: a root delete recorded non-strictly at index 0 is raised
strictly with the same reason text. -/
theorem strict_matches_nonstrict_reason_witness :
    ∃ s2, apply (.obj 0 .nil) [⟨[], "delete", .undefined⟩] (some ⟨some true⟩) 3 =
      ⟨.error msgRootDelete, [], s2⟩ :=
  (strict_matches_nonstrict_reason (.obj 0 .nil) [⟨[], "delete", .undefined⟩] 3).1
    ⟨0, ⟨[], "delete", .undefined⟩, msgRootDelete⟩ (by decide)

/-- CLAIM C9 (corrected at scalar documents).  Applying an empty batch
returns a deep copy: the error list is empty, the result is structurally
equal to the input document, and whenever the document is a container (and
the supply is fresh for it) the result is a different container instance.
For scalar documents the result is the very same primitive value — there is
no "not reference-identical" reading for JavaScript primitives — which is
what `apply_empty_scalar_identity` exhibits against the claim as stated. -/
theorem apply_empty_clone (d : JValue) (cfg : Option Config) (sup : Nat) :
    (apply d [] cfg sup).errors = [] ∧
    ∃ r, (apply d [] cfg sup).result = .ok r ∧ stripIds r = stripIds d ∧
      (isContainer d = true → (∀ i ∈ idsV d, i < sup) → r ≠ d) := by
  refine ⟨rfl, (clone d sup).1, rfl, clone_strip d sup, ?_⟩
  intro hc hfresh heq
  cases d with
  | undefined => simp [isContainer] at hc
  | null => simp [isContainer] at hc
  | bool b => simp [isContainer] at hc
  | num n => simp [isContainer] at hc
  | str t => simp [isContainer] at hc
  | arr aid el pr =>
      simp only [clone] at heq
      injection heq with h1 h2 h3
      have := hfresh aid (by simp [idsV])
      omega
  | obj oid fs =>
      simp only [clone] at heq
      injection heq with h1 h2
      have := hfresh oid (by simp [idsV])
      omega

/-- Counterexample to C9 as stated: for the scalar document `5`, the result
of `apply(5, [])` is the number `5` itself; JavaScript primitives are
compared by value (`5 === 5`), so the returned value is not distinguishable
from — not "non-identical to" — the original document. -/
theorem apply_empty_scalar_identity :
    (apply (.num 5) [] none 0).result = .ok (.num 5) := rfl

/-- Witness for the amended C9 at a concrete container document. -/
theorem apply_empty_clone_witness :
    (apply (.obj 3 .nil) [] none 4).errors = [] ∧
    ∃ r, (apply (.obj 3 .nil) [] none 4).result = .ok r ∧
      stripIds r = stripIds (.obj 3 .nil) ∧ r ≠ .obj 3 .nil := by
  obtain ⟨h1, r, h2, h3, h4⟩ := apply_empty_clone (.obj 3 .nil) none 4
  exact ⟨h1, r, h2, h3, h4 rfl (by decide)⟩

/-- CLAIM C10 (confirmed).  After a strict `apply` that raises, the error
record is empty: the record is reset at the start of the call and an error
is only recorded in non-strict mode. -/
theorem strict_apply_errors_empty (source : JValue) (ops : List Operation)
    (cfg : Option Config) (sup : Nat) (m : String)
    (hstrict : strictOf cfg = true)
    (_hraise : (apply source ops cfg sup).result = .error m) :
    (apply source ops cfg sup).errors = [] := by
  show (applyGo source (strictOf cfg) ops 0 (clone source sup).1
      (clone source sup).2).errors = []
  rw [hstrict]
  exact applyGo_strict_errors source ops 0 _ _

/-- Witness for C10: a raising strict run leaves the record empty. -/
theorem strict_apply_errors_empty_witness :
    (apply (.obj 0 .nil) [⟨[], "delete", .undefined⟩] none 0).errors = [] :=
  strict_apply_errors_empty (.obj 0 .nil) [⟨[], "delete", .undefined⟩] none 0
    msgRootDelete rfl (by decide)

/-- CLAIM C8 (confirmed).  Root deletion always fails with the root-deletion
reason, for every document, every supply, and in both modes (raised
strictly, recorded non-strictly, the original document returned); and
removing an already-absent field from a map parent succeeds and leaves the
document structurally unchanged. -/
theorem delete_root_and_idempotent :
    (∀ (doc value : JValue) (sup : Nat),
      executeOperation doc ⟨[], "delete", value⟩ sup = .error msgRootDelete) ∧
    (∀ (doc : JValue) (cfg : Option Config) (sup : Nat) (value : JValue),
      strictOf cfg = true →
      apply doc [⟨[], "delete", value⟩] cfg sup =
        ⟨.error msgRootDelete, [], (clone doc sup).2⟩) ∧
    (∀ (doc : JValue) (cfg : Option Config) (sup : Nat) (value : JValue),
      strictOf cfg = false →
      apply doc [⟨[], "delete", value⟩] cfg sup =
        ⟨.ok doc, [⟨0, ⟨[], "delete", value⟩, msgRootDelete⟩], (clone doc sup).2⟩) ∧
    (∀ (doc : JValue) (pp : List Key) (fk : Key) (oid : Nat) (fs : JFields)
      (sup : Nat),
      get doc pp = .obj oid fs → fs.lookupF (renderKey fk) = none →
      ∃ r, executeOperation doc ⟨pp ++ [fk], "delete", .undefined⟩ sup =
        .ok (r, (clone doc sup).2) ∧ stripIds r = stripIds doc) := by
  have hroot : ∀ (doc value : JValue) (sup : Nat),
      executeOperation doc ⟨[], "delete", value⟩ sup = .error msgRootDelete :=
    fun doc value sup => rfl
  refine ⟨hroot, ?_, ?_, ?_⟩
  · intro doc cfg sup value hstrict
    show applyGo doc (strictOf cfg) [⟨[], "delete", value⟩] 0
        (clone doc sup).1 (clone doc sup).2 = _
    rw [hstrict]
    simp [applyGo, hroot]
  · intro doc cfg sup value hstrict
    show applyGo doc (strictOf cfg) [⟨[], "delete", value⟩] 0
        (clone doc sup).1 (clone doc sup).2 = _
    rw [hstrict]
    simp [applyGo, hroot]
  · intro doc pp fk oid fs sup hobj habs
    have hexec : executeOperation doc ⟨pp ++ [fk], "delete", .undefined⟩ sup =
        deleteOp doc (pp ++ [fk]) sup := by
      simp [executeOperation]
    have hstripget : stripIds (get (clone doc sup).1 pp) = .obj 0 (stripF fs) := by
      rw [← get_strip, clone_strip, get_strip, hobj]
      rfl
    cases hg : get (clone doc sup).1 pp with
    | undefined => rw [hg] at hstripget; simp [stripIds] at hstripget
    | null => rw [hg] at hstripget; simp [stripIds] at hstripget
    | bool b => rw [hg] at hstripget; simp [stripIds] at hstripget
    | num n => rw [hg] at hstripget; simp [stripIds] at hstripget
    | str t => rw [hg] at hstripget; simp [stripIds] at hstripget
    | arr aid el pr => rw [hg] at hstripget; simp [stripIds] at hstripget
    | obj oid2 fs2 =>
        rw [hg] at hstripget
        simp only [stripIds, JValue.obj.injEq, true_and] at hstripget
        have habs2 : fs2.lookupF (renderKey fk) = none := by
          have h1 : (stripF fs2).lookupF (renderKey fk) =
              (stripF fs).lookupF (renderKey fk) := by rw [hstripget]
          rw [stripF_lookupF, stripF_lookupF, habs] at h1
          exact Option.map_eq_none'.mp h1
        have hwalk := delWalk_noop pp (clone doc sup).1 (pathJoin pp) fk oid2 fs2
          hg habs2
        refine ⟨(clone doc sup).1, ?_, clone_strip doc sup⟩
        rw [hexec, deleteOp_concat, hwalk]

/-- Witness for C8: removing the absent field `b` from `{a: {}}` at path
`["b"]` succeeds and leaves the document structurally unchanged. -/
theorem delete_root_and_idempotent_witness :
    ∃ r, executeOperation (.obj 0 (.cons "a" (.obj 1 .nil) .nil))
        ⟨([] : List Key) ++ [.str "b"], "delete", .undefined⟩ 7 =
      .ok (r, (clone (.obj 0 (.cons "a" (.obj 1 .nil) .nil)) 7).2) ∧
      stripIds r = stripIds (.obj 0 (.cons "a" (.obj 1 .nil) .nil)) :=
  delete_root_and_idempotent.2.2.2 (.obj 0 (.cons "a" (.obj 1 .nil) .nil)) []
    (.str "b") 0 (.cons "a" (.obj 1 .nil) .nil) 7 rfl (by decide)

/-- Counterexample to C4 as stated: the type-mismatch failure of append
(appending the number `42` to the string at path `["zzz"]`) produces the
reason "Can only append/prepend strings to strings", which does not contain
the dot-joined failing path "zzz" at all. -/
theorem reason_shapes_counterexample :
    executeOperation (.obj 0 (.cons "zzz" (.str "s") .nil))
      ⟨[.str "zzz"], "append", .num 42⟩ 5 = .error msgStringsOnly ∧
    ¬ List.IsInfix (pathJoin [.str "zzz"]).data msgStringsOnly.data :=
  ⟨by decide, by decide⟩

/-- Witness for the amended C4 at concrete paths. -/
theorem reason_shapes_witness :
    List.IsInfix (pathJoin [Key.str "a"]).data (msgNotArray [Key.str "a"]).data ∧
    msgNotArray [Key.str "a"] ≠ msgNotString [Key.str "a"] :=
  ⟨reason_shapes.1 [Key.str "a"],
    reason_shapes.2.2.2.2.2.2.1 [Key.str "a"] [Key.str "a"]⟩

/-- CLAIM C3 (corrected).  The write operation does not always succeed: an
existing scalar along the path makes the strict-mode walk throw, as
`set_error_on_scalar` shows.  Amended positive part: a write at the empty
path always succeeds (returning the value itself), and a write along a
non-empty path succeeds whenever every node at which the walk indexes or
assigns is a container — with absent intermediates counting as the
materialized container, and array `length` writes carrying a valid length
(the `pathClear` condition). -/
theorem set_ok_of_pathClear (doc value : JValue) (sup : Nat) :
    set doc [] value sup = .ok (value, sup) ∧
    ∀ (k : Key) (ks : List Key), pathClear doc k ks value = true →
      ∃ r s', set doc (k :: ks) value sup = .ok (r, s') := by
  refine ⟨rfl, ?_⟩
  intro k ks h
  have htrans : pathClear (clone doc sup).1 k ks value = true := by
    rw [← pathClear_strip ks (clone doc sup).1, clone_strip, pathClear_strip ks doc]
    exact h
  obtain ⟨r, s', hr⟩ := setLoop_ok_of_pathClear ks (clone doc sup).1 k value
    (clone doc sup).2 htrans
  exact ⟨r, s', hr⟩

/-- Counterexample to C3 as stated: writing at `["a","b","c"]` into
`{a: 5}` applies the `in` operator to the number `5`, which throws a
TypeError in JavaScript (in any mode), so `set` does not always succeed. -/
theorem set_error_on_scalar :
    set (.obj 0 (.cons "a" (.num 5) .nil)) [.str "a", .str "b", .str "c"]
      (.num 1) 10 = .error inOpTypeError := by decide

/-- Witness for the amended C3: a write of a fresh field into `{}`. -/
theorem set_ok_of_pathClear_witness :
    ∃ r s', set (.obj 0 .nil) [Key.str "a"] (.num 1) 5 = .ok (r, s') :=
  (set_ok_of_pathClear (.obj 0 .nil) (.num 1) 5).2 (.str "a") [] (by decide)

/-- CLAIM C6 (confirmed).  Append and prepend resolve the current value at
the path: a target that is neither an array nor a string fails with the
not-appendable reason; a string target demands a string value (else the
type-mismatch reason) and concatenates `current ++ value` (append) or
`value ++ current` (prepend), written back through `set`; an array target
produces a fresh array (fresh identity tag `sup`, so the original sequence
instance is untouched) with the value at the end (append) or the start
(prepend), written back through `set`. -/
theorem append_prepend_spec (doc : JValue) (path : List Key) (value : JValue)
    (sup : Nat) :
    (isArr (get doc path) = false → isStr (get doc path) = false →
      executeOperation doc ⟨path, "append", value⟩ sup =
        .error (msgNotAppendable path) ∧
      executeOperation doc ⟨path, "prepend", value⟩ sup =
        .error (msgNotAppendable path)) ∧
    (∀ s, get doc path = .str s → isStr value = false →
      executeOperation doc ⟨path, "append", value⟩ sup = .error msgStringsOnly ∧
      executeOperation doc ⟨path, "prepend", value⟩ sup = .error msgStringsOnly) ∧
    (∀ s t, get doc path = .str s → value = .str t →
      executeOperation doc ⟨path, "append", value⟩ sup =
        set doc path (.str (s ++ t)) sup ∧
      executeOperation doc ⟨path, "prepend", value⟩ sup =
        set doc path (.str (t ++ s)) sup) ∧
    (∀ aid el pr, get doc path = .arr aid el pr →
      executeOperation doc ⟨path, "append", value⟩ sup =
        set doc path (.arr sup (el.snoc value) .nil) (sup + 1) ∧
      executeOperation doc ⟨path, "prepend", value⟩ sup =
        set doc path (.arr sup (.cons value el) .nil) (sup + 1)) := by
  have happ : executeOperation doc ⟨path, "append", value⟩ sup =
      appendOp doc path true value sup := by simp [executeOperation]
  have hprep : executeOperation doc ⟨path, "prepend", value⟩ sup =
      appendOp doc path false value sup := by simp [executeOperation]
  refine ⟨?_, ?_, ?_, ?_⟩
  · intro ha hs
    rw [happ, hprep]
    constructor <;> simp [appendOp, validateAppendable, ha, hs]
  · intro s hcur hval
    rw [happ, hprep]
    cases value with
    | str u => simp [isStr] at hval
    | undefined => constructor <;> simp [appendOp, hcur, validateAppendable, isArr, isStr]
    | null => constructor <;> simp [appendOp, hcur, validateAppendable, isArr, isStr]
    | bool b => constructor <;> simp [appendOp, hcur, validateAppendable, isArr, isStr]
    | num n => constructor <;> simp [appendOp, hcur, validateAppendable, isArr, isStr]
    | arr a b c => constructor <;> simp [appendOp, hcur, validateAppendable, isArr, isStr]
    | obj a b => constructor <;> simp [appendOp, hcur, validateAppendable, isArr, isStr]
  · intro s t hcur hval
    subst hval
    rw [happ, hprep]
    constructor <;> simp [appendOp, hcur, validateAppendable, isArr, isStr]
  · intro aid el pr hcur
    rw [happ, hprep]
    constructor <;> simp [appendOp, hcur, validateAppendable, isArr, isStr]

/-- Witness for C6 at the spec's scenario E: appending and prepending
" World" to the string at `["text"]`. -/
theorem append_prepend_spec_witness :
    executeOperation (.obj 0 (.cons "text" (.str "Hello") .nil))
        ⟨[.str "text"], "append", .str " World"⟩ 10 =
      set (.obj 0 (.cons "text" (.str "Hello") .nil)) [.str "text"]
        (.str ("Hello" ++ " World")) 10 ∧
    executeOperation (.obj 0 (.cons "text" (.str "Hello") .nil))
        ⟨[.str "text"], "prepend", .str " World"⟩ 10 =
      set (.obj 0 (.cons "text" (.str "Hello") .nil)) [.str "text"]
        (.str (" World" ++ "Hello")) 10 :=
  (append_prepend_spec (.obj 0 (.cons "text" (.str "Hello") .nil))
    [.str "text"] (.str " World") 10).2.2.1 "Hello" " World" (by decide) rfl

/-- CLAIM C7 (confirmed).  Materialization of missing intermediates: when
the first key of a longer path is absent from the document, the container
created and left at that key in the result is an array exactly when the
next key is an integer, an object otherwise; and the spec's scenario B,
writing "John" at `["users", 0, "name"]` into `{}`, produces
`{users: [{name: "John"}]}` (with fresh identity tags 10, 11, 12). -/
theorem set_materializes_by_next_key :
    (∀ (doc : JValue) (k nk : Key) (rest : List Key) (value : JValue)
      (sup : Nat) (r : JValue) (s' : Nat),
      keyInB doc k = false →
      set doc (k :: nk :: rest) value sup = .ok (r, s') →
      isArr (jsIndex r k) = nk.isNum ∧ isObj (jsIndex r k) = !nk.isNum) ∧
    set (.obj 0 .nil) [.str "users", .num 0, .str "name"] (.str "John") 10 =
      .ok (.obj 10 (.cons "users"
        (.arr 11 (.cons (.obj 12 (.cons "name" (.str "John") .nil)) .nil) .nil)
        .nil), 13) := by
  constructor
  · intro doc k nk rest value sup r s' hkey h
    have h' : setLoop (clone doc sup).1 k (nk :: rest) value (clone doc sup).2 =
        .ok (r, s') := h
    have hkey2 : keyInB (clone doc sup).1 k = false := by
      rw [← keyInB_strip, clone_strip, keyInB_strip]
      exact hkey
    cases hk : keyIn (clone doc sup).1 k with
    | error e => simp [setLoop, hk] at h'
    | ok b =>
        obtain ⟨hcont, hbeq⟩ := keyIn_ok hk
        rw [hkey2] at hbeq
        cases b with
        | true => simp at hbeq
        | false =>
            cases hasg2 : assign (clone doc sup).1 k
                (freshContainer nk (clone doc sup).2) with
            | error e => simp [setLoop, hk, hasg2] at h'
            | ok cur2 =>
                cases hrec : setLoop (jsIndex cur2 k) nk rest value
                    ((clone doc sup).2 + 1) with
                | error e => simp [setLoop, hk, hasg2, hrec] at h'
                | ok p =>
                    cases hasg : assign cur2 k p.1 with
                    | error e => simp [setLoop, hk, hasg2, hrec, hasg] at h'
                    | ok out =>
                        simp only [setLoop, hk, hasg2, hrec, hasg,
                          Except.ok.injEq, Prod.mk.injEq] at h'
                        obtain ⟨h1, h2⟩ := h'
                        subst h1
                        rw [assign_jsIndex hasg]
                        have hsh := setLoop_shape rest (jsIndex cur2 k) nk value
                          ((clone doc sup).2 + 1) p.1 p.2 hrec
                        rw [hsh.2.1, hsh.2.2.1, assign_jsIndex hasg2,
                          freshContainer_isArr, freshContainer_isObj]
                        exact ⟨rfl, rfl⟩
  · decide

/-- Witness for C7: the integer next key 0 at the materialized key "users"
produced an array there. -/
theorem set_materializes_by_next_key_witness :
    isArr (jsIndex (.obj 10 (.cons "users"
        (.arr 11 (.cons (.obj 12 (.cons "name" (.str "John") .nil)) .nil) .nil)
        .nil)) (.str "users")) = (Key.num 0).isNum ∧
    isObj (jsIndex (.obj 10 (.cons "users"
        (.arr 11 (.cons (.obj 12 (.cons "name" (.str "John") .nil)) .nil) .nil)
        .nil)) (.str "users")) = !(Key.num 0).isNum :=
  set_materializes_by_next_key.1 (.obj 0 .nil) (.str "users") (.num 0)
    [.str "name"] (.str "John") 10
    (.obj 10 (.cons "users"
      (.arr 11 (.cons (.obj 12 (.cons "name" (.str "John") .nil)) .nil) .nil)
      .nil)) 13 (by decide) (by decide)

/-! Spine freshness of the write-back operations. -/

theorem set_spine (source : JValue) (path : List Key) (value : JValue)
    (sup : Nat) (r : JValue) (s' : Nat)
    (hfresh : ∀ i ∈ idsV source, i < sup)
    (hroot : ∀ i ∈ rootIds value, i ∉ idsV source)
    (hok : set source path value sup = .ok (r, s')) :
    ∀ i ∈ spineIds r path, i ∉ idsV source := by
  cases path with
  | nil =>
      simp only [set, Except.ok.injEq, Prod.mk.injEq] at hok
      obtain ⟨h1, h2⟩ := hok
      subst h1
      intro i hi
      exact hroot i hi
  | cons k ks =>
      have h' : setLoop (clone source sup).1 k ks value (clone source sup).2 =
          .ok (r, s') := hok
      obtain ⟨pre, hsp, hmem⟩ := setLoop_spine ks (clone source sup).1 k value
        (clone source sup).2 r s' h'
      intro i hi hsrc
      rw [hsp] at hi
      rcases List.mem_append.mp hi with hi | hi
      · rcases hmem i hi with hi' | hi'
        · have hge := clone_ids source sup i hi'
          have hlt := hfresh i hsrc
          omega
        · have hle := clone_le source sup
          have hlt := hfresh i hsrc
          omega
      · exact hroot i hi hsrc

theorem appendOp_spine (source : JValue) (path : List Key) (isApp : Bool)
    (value : JValue) (sup : Nat) (r : JValue) (s' : Nat)
    (hfresh : ∀ i ∈ idsV source, i < sup)
    (hok : appendOp source path isApp value sup = .ok (r, s')) :
    ∀ i ∈ spineIds r path, i ∉ idsV source := by
  unfold appendOp at hok
  cases hcur : get source path with
  | undefined => rw [hcur] at hok; simp [validateAppendable, isArr, isStr] at hok
  | null => rw [hcur] at hok; simp [validateAppendable, isArr, isStr] at hok
  | bool b => rw [hcur] at hok; simp [validateAppendable, isArr, isStr] at hok
  | num n => rw [hcur] at hok; simp [validateAppendable, isArr, isStr] at hok
  | obj oid fs => rw [hcur] at hok; simp [validateAppendable, isArr, isStr] at hok
  | str s =>
      rw [hcur] at hok
      simp only [validateAppendable, isArr, isStr, Bool.false_or, if_pos] at hok
      cases value with
      | str t =>
          exact set_spine source path (.str (if isApp then s ++ t else t ++ s))
            sup r s' hfresh (by simp [rootIds]) hok
      | undefined => simp at hok
      | null => simp at hok
      | bool b => simp at hok
      | num n => simp at hok
      | arr a b c => simp at hok
      | obj a b => simp at hok
  | arr aid el pr =>
      rw [hcur] at hok
      simp only [validateAppendable, isArr, isStr, Bool.true_or, if_pos] at hok
      refine set_spine source path
        (.arr sup (if isApp then el.snoc value else .cons value el) .nil)
        (sup + 1) r s' (fun i hi => by have := hfresh i hi; omega) ?_ hok
      intro i hi hsrc
      simp only [rootIds, List.mem_singleton] at hi
      subst hi
      have := hfresh i hsrc
      omega

/-- CLAIM C2 (corrected).  Freshness of the written spine: for every
successful operation whose supplied value does not alias the document and
whose supply is fresh, no container on the result's spine from the root
down to the edited node is a container instance of the original document
(every container tag met while reading the result along the written path is
absent from the original).  The claim's stronger assertion — that nothing
at *or below* the written path is shared with the original — is refuted by
`append_shares_element_instance`: append/prepend re-attach the original
sequence's elements, and a write re-attaches the supplied value, so
containers strictly below the edited node may be shared instances. -/
theorem exec_result_spine_fresh (source : JValue) (op : Operation) (sup : Nat)
    (r : JValue) (s' : Nat)
    (hfresh : ∀ i ∈ idsV source, i < sup)
    (hval : ∀ i ∈ idsV op.value, i ∉ idsV source)
    (hok : executeOperation source op sup = .ok (r, s')) :
    ∀ i ∈ spineIds r op.path, i ∉ idsV source := by
  unfold executeOperation at hok
  split_ifs at hok with h1 h2 h3 h4
  · exact set_spine source op.path op.value sup r s' hfresh
      (fun i hi => hval i (rootIds_sub_idsV _ i hi)) hok
  · cases hpath : op.path with
    | nil => rw [hpath] at hok; simp [deleteOp] at hok
    | cons a as =>
        rw [hpath] at hok
        have h' : (match delWalk (pathJoin ((a :: as).dropLast))
              (((a :: as).getLast?).getD (.str "")) (clone source sup).1
              ((a :: as).dropLast) with
          | .error e => .error e
          | .ok r0 => .ok (r0, (clone source sup).2) :
            Except String (JValue × Nat)) = .ok (r, s') := hok
        cases hwalk : delWalk (pathJoin ((a :: as).dropLast))
            (((a :: as).getLast?).getD (.str "")) (clone source sup).1
            ((a :: as).dropLast) with
        | error e => rw [hwalk] at h'; simp at h'
        | ok r0 =>
            rw [hwalk] at h'
            simp only [Except.ok.injEq, Prod.mk.injEq] at h'
            obtain ⟨hr0, hs⟩ := h'
            subst hr0
            intro i hi hsrc
            have h2 := delWalk_ids ((a :: as).dropLast) _ _ _ _ hwalk i
              (spineIds_sub_idsV (a :: as) r0 i hi)
            have h3 := clone_ids source sup i h2
            have h4 := hfresh i hsrc
            omega
  · exact appendOp_spine source op.path true op.value sup r s' hfresh hok
  · exact appendOp_spine source op.path false op.value sup r s' hfresh hok

/-- Counterexample to C2 as stated: appending "x" to `{items: [[1]]}`
succeeds, and the inner array `[1]` found in the result below the written
path `["items"]` (at `items[0]`) is the very container instance (identity
tag 3) reachable in the original document — shared mutable substructure
below a written path. -/
theorem append_shares_element_instance :
    executeOperation
      (.obj 1 (.cons "items"
        (.arr 2 (.cons (.arr 3 (.cons (.num 1) .nil) .nil) .nil) .nil) .nil))
      ⟨[.str "items"], "append", .str "x"⟩ 10 =
      .ok (.obj 11 (.cons "items"
        (.arr 10 (.cons (.arr 3 (.cons (.num 1) .nil) .nil)
          (.cons (.str "x") .nil)) .nil) .nil), 14) ∧
    rootIds (jsIndex (jsIndex
      (.obj 11 (.cons "items"
        (.arr 10 (.cons (.arr 3 (.cons (.num 1) .nil) .nil)
          (.cons (.str "x") .nil)) .nil) .nil)) (.str "items")) (.num 0)) = [3] ∧
    (3 : Nat) ∈ idsV (.obj 1 (.cons "items"
      (.arr 2 (.cons (.arr 3 (.cons (.num 1) .nil) .nil) .nil) .nil) .nil)) :=
  ⟨by decide, by decide, by decide⟩

/-- Witness for the amended C2: a concrete write whose result spine carries
only fresh tags — the root tag 5 of the result is not a tag of the original
document. -/
theorem exec_result_spine_fresh_witness :
    (5 : Nat) ∉ idsV (JValue.obj 0 .nil) :=
  exec_result_spine_fresh (.obj 0 .nil) ⟨[.str "a"], "set", .num 1⟩ 5
    (.obj 5 (.cons "a" (.num 1) .nil)) 6 (by decide) (by decide) (by decide)
    5 (by decide)

end JsonMason
